import Mathlib

/-!
Verification of the example-extraction and source-map-correlation pipeline of
`ferrum.doctest` (`src/index.js`), via a shallow embedding.  Text is modelled
as `List Char`; JavaScript string primitives (`slice`, `split('\n')`,
`match(/\n/g).length`) are embedded as executable Lean functions.
-/

set_option maxHeartbeats 1000000

namespace Doctest

/-! ## Basic text helpers -/

/-- Number of newline characters in a character list (the JS idiom
`text.match(/\n/g)` counts exactly the newline occurrences; `size` of the
result is the number of newlines, with a null result standing for zero —
the ferrum `size` helper is external to the repository, so the zero case is
modelled from the spec, which says to advance "by the number of newlines in
that span"). -/
def countNl : List Char → Nat
  | [] => 0
  | c :: r => (if c = '\n' then 1 else 0) + countNl r

theorem countNl_append (a b : List Char) :
    countNl (a ++ b) = countNl a + countNl b := by
  induction a with
  | nil => simp [countNl]
  | cons c r ih => simp [countNl, ih]; omega

/-- `noNl l` holds when `l` contains no newline character. -/
def noNl (l : List Char) : Prop := '\n' ∉ l

theorem countNl_eq_zero_of_noNl {l : List Char} (h : noNl l) : countNl l = 0 := by
  induction l with
  | nil => rfl
  | cons c r ih =>
    simp only [noNl, List.mem_cons, not_or] at h
    simp [countNl, Ne.symm h.1, ih h.2]

/-- Prepend a character to the first piece of a piece list (helper for
`splitNl`). -/
def consHead (c : Char) : List (List Char) → List (List Char)
  | [] => [[c]]
  | h :: t => (c :: h) :: t

/-- JS `text.split('\n')`: split a character list at newline characters,
keeping empty pieces (so `"a\n"` splits into two pieces, the second empty). -/
def splitNl : List Char → List (List Char)
  | [] => [[]]
  | c :: r => if c = '\n' then [] :: splitNl r else consHead c (splitNl r)

theorem splitNl_ne_nil (s : List Char) : splitNl s ≠ [] := by
  induction s with
  | nil => simp [splitNl]
  | cons c r ih =>
    by_cases h : c = '\n'
    · simp [splitNl, h]
    · simp only [splitNl, h, if_false]
      cases hs : splitNl r with
      | nil => exact absurd hs ih
      | cons a t => simp [consHead]

theorem length_splitNl (s : List Char) : (splitNl s).length = countNl s + 1 := by
  induction s with
  | nil => rfl
  | cons c r ih =>
    by_cases h : c = '\n'
    · simp [splitNl, countNl, h, ih]; omega
    · simp only [splitNl, countNl, h, if_false, if_neg h]
      cases hs : splitNl r with
      | nil => exact absurd hs (splitNl_ne_nil r)
      | cons a t =>
        have := ih
        rw [hs] at this
        simp [consHead, List.length_cons] at this ⊢
        omega

theorem mem_splitNl_noNl {x : List Char} {s : List Char}
    (h : x ∈ splitNl s) : noNl x := by
  induction s generalizing x with
  | nil =>
    simp [splitNl] at h
    simp [h, noNl]
  | cons c r ih =>
    by_cases hc : c = '\n'
    · simp only [splitNl, hc, if_true, List.mem_cons] at h
      rcases h with h | h
      · simp [h, noNl]
      · exact ih h
    · simp only [splitNl, hc, if_false, if_neg hc] at h
      cases hs : splitNl r with
      | nil => exact absurd hs (splitNl_ne_nil r)
      | cons a t =>
        rw [hs] at h
        simp only [consHead, List.mem_cons] at h
        rcases h with h | h
        · subst h
          have ha : a ∈ splitNl r := by rw [hs]; exact List.mem_cons_self a t
          have := ih ha
          simp only [noNl, List.mem_cons, not_or] at this ⊢
          exact ⟨Ne.symm hc, this⟩
        · exact ih (by rw [hs]; exact List.mem_cons_of_mem a h)

/-- Glue two piece lists, merging the last piece of the first with the first
piece of the second (how `splitNl` distributes over append). -/
def joinLast : List (List Char) → List (List Char) → List (List Char)
  | [], ys => ys
  | [x], [] => [x]
  | [x], y :: ys => (x ++ y) :: ys
  | x :: x' :: xs, ys => x :: joinLast (x' :: xs) ys

theorem splitNl_append (a b : List Char) :
    splitNl (a ++ b) = joinLast (splitNl a) (splitNl b) := by
  induction a with
  | nil =>
    cases hb : splitNl b with
    | nil => exact absurd hb (splitNl_ne_nil b)
    | cons y ys => simp [splitNl, joinLast, hb]
  | cons c r ih =>
    have hstep : (c :: r) ++ b = c :: (r ++ b) := rfl
    rw [hstep]
    by_cases hc : c = '\n'
    · subst hc
      simp only [splitNl, if_true]
      rw [ih]
      cases hr : splitNl r with
      | nil => exact absurd hr (splitNl_ne_nil r)
      | cons z zs =>
        cases zs with
        | nil =>
          cases hb : splitNl b with
          | nil => exact absurd hb (splitNl_ne_nil b)
          | cons y ys => simp [joinLast]
        | cons z' zs' => simp [joinLast]
    · simp only [splitNl, hc, if_false, if_neg hc]
      rw [ih]
      cases hr : splitNl r with
      | nil => exact absurd hr (splitNl_ne_nil r)
      | cons z zs =>
        cases zs with
        | nil =>
          cases hb : splitNl b with
          | nil => exact absurd hb (splitNl_ne_nil b)
          | cons y ys => simp [joinLast, consHead]
        | cons z' zs' => simp [joinLast, consHead]

theorem joinLast_get?_of_lt (xs ys : List (List Char)) (i : Nat)
    (h : i + 1 < xs.length) : (joinLast xs ys).get? i = xs.get? i := by
  induction xs generalizing i with
  | nil => simp at h
  | cons x xs ih =>
    cases xs with
    | nil => simp at h
    | cons x' xs' =>
      cases i with
      | zero => cases ys <;> simp [joinLast]
      | succ j =>
        simp only [joinLast, List.get?_cons_succ]
        exact ih j (by simpa using h)

/-- `endsNlOrEmpty p` : the buffer `p` is empty or ends in a newline. -/
def endsNlOrEmpty (p : List Char) : Prop := p = [] ∨ p.getLast? = some '\n'

theorem joinLast_ne_nil (xs : List (List Char)) (y : List Char)
    (ys : List (List Char)) : joinLast xs (y :: ys) ≠ [] := by
  match xs with
  | [] => simp [joinLast]
  | [x] => simp [joinLast]
  | x :: x' :: xs => simp [joinLast]

theorem getLast?_joinLast_two (xs : List (List Char)) (y z : List Char)
    (ys : List (List Char)) :
    (joinLast xs (y :: z :: ys)).getLast? = (z :: ys).getLast? := by
  induction xs with
  | nil => simp [joinLast, List.getLast?_cons_cons]
  | cons x xs ih =>
    cases xs with
    | nil => simp [joinLast, List.getLast?_cons_cons]
    | cons x' xs' =>
      show (x :: joinLast (x' :: xs') (y :: z :: ys)).getLast? = _
      cases hL : joinLast (x' :: xs') (y :: z :: ys) with
      | nil => exact absurd hL (joinLast_ne_nil _ _ _)
      | cons a t =>
        rw [List.getLast?_cons_cons, ← hL]
        exact ih

theorem exists_concat_of_endsNl {p : List Char} (h : p.getLast? = some '\n') :
    ∃ q, p = q ++ ['\n'] := by
  cases p with
  | nil => simp at h
  | cons c r =>
    refine ⟨(c :: r).dropLast, ?_⟩
    have hne : (c :: r : List Char) ≠ [] := by simp
    have hl : (c :: r).getLast hne = '\n' := by
      have := List.getLast?_eq_getLast (c :: r) hne
      rw [h] at this
      exact (Option.some_inj.mp this).symm
    conv_lhs => rw [← List.dropLast_append_getLast hne]
    rw [hl]

theorem getLast?_splitNl {p : List Char} (h : endsNlOrEmpty p) :
    (splitNl p).getLast? = some [] := by
  rcases h with h | h
  · subst h; rfl
  · obtain ⟨q, rfl⟩ := exists_concat_of_endsNl h
    rw [splitNl_append]
    have hnl : splitNl ['\n'] = [[], []] := rfl
    rw [hnl, getLast?_joinLast_two]
    rfl

theorem splitNl_append_of_endsNl {p : List Char} (q : List Char)
    (h : endsNlOrEmpty p) :
    splitNl (p ++ q) = (splitNl p).dropLast ++ splitNl q := by
  rw [splitNl_append]
  have hlast := getLast?_splitNl h
  obtain ⟨xs, hxs⟩ : ∃ xs, splitNl p = xs ++ [[]] := by
    cases hp : splitNl p with
    | nil => exact absurd hp (splitNl_ne_nil p)
    | cons a t =>
      rw [hp] at hlast
      have hne : (a :: t : List (List Char)) ≠ [] := by simp
      have := List.getLast?_eq_getLast (a :: t) hne
      rw [hlast] at this
      have hg : (a :: t).getLast hne = [] := (Option.some_inj.mp this).symm
      refine ⟨(a :: t).dropLast, ?_⟩
      conv_lhs => rw [← List.dropLast_append_getLast hne]
      rw [hg]
  rw [hxs]
  have hdrop : (xs ++ [([] : List Char)]).dropLast = xs := by
    simp
  rw [hdrop]
  -- joinLast (xs ++ [[]]) ys = xs ++ ys for nonempty ys
  cases hq : splitNl q with
  | nil => exact absurd hq (splitNl_ne_nil q)
  | cons y ys =>
    clear hxs hdrop hlast
    induction xs with
    | nil => simp [joinLast]
    | cons x xs ih =>
      cases xs with
      | nil => simp [joinLast]
      | cons x' xs' =>
        show x :: joinLast ((x' :: xs') ++ [[]]) (y :: ys) = _
        rw [ih]
        rfl

theorem length_dropLast_splitNl (p : List Char) :
    ((splitNl p).dropLast).length = countNl p := by
  have h1 := length_splitNl p
  have h2 : ((splitNl p).dropLast).length = (splitNl p).length - 1 := by
    simp [List.length_dropLast]
  omega

/-- Reading a fully completed line of a buffer is unaffected by anything
appended later. -/
theorem splitNl_get?_append {a : List Char} (b : List Char) {i : Nat}
    (h : i < countNl a) :
    (splitNl (a ++ b)).get? i = (splitNl a).get? i := by
  rw [splitNl_append]
  exact joinLast_get?_of_lt _ _ i (by rw [length_splitNl]; omega)

theorem splitNl_noNl_cons {x : List Char} (r : List Char) (h : noNl x) :
    splitNl (x ++ '\n' :: r) = x :: splitNl r := by
  induction x with
  | nil => simp [splitNl]
  | cons c t ih =>
    simp only [noNl, List.mem_cons, not_or] at h
    have hc : ¬ c = '\n' := fun he => h.1 (he ▸ rfl)
    show splitNl (c :: (t ++ '\n' :: r)) = _
    simp only [splitNl, hc, if_false, if_neg hc]
    rw [ih h.2]
    rfl

/-! ## JS string slicing -/

/-- JS `text.slice(a, b)` for `0 ≤ a ≤ b`. -/
def strSlice (l : List Char) (a b : Nat) : List Char := (l.take b).drop a

theorem strSlice_eq_take_drop (l : List Char) (a b : Nat) :
    strSlice l a b = (l.drop a).take (b - a) := by
  simp [strSlice, List.drop_take]

theorem strSlice_append_strSlice {l : List Char} {a b c : Nat}
    (hab : a ≤ b) (hbc : b ≤ c) :
    strSlice l a b ++ strSlice l b c = strSlice l a c := by
  by_cases hb : b ≤ l.length
  · have h1 : l.take c = l.take b ++ strSlice l b c := by
      rw [strSlice_eq_take_drop]
      rw [← List.take_append_drop b (l.take c)]
      congr 1
      · rw [List.take_take, Nat.min_eq_left hbc]
      · rw [List.drop_take]
    have h4 : strSlice l a c = List.drop a (List.take c l) := rfl
    rw [h4, h1,
      List.drop_append_of_le_length (by rw [List.length_take]; omega)]
    rfl
  · push_neg at hb
    have h2 : strSlice l b c = [] := by
      rw [strSlice_eq_take_drop]
      have : l.drop b = [] := List.drop_eq_nil_of_le (by omega)
      simp [this]
    have h3 : strSlice l a b = strSlice l a c := by
      unfold strSlice
      rw [List.take_of_length_le (by omega), List.take_of_length_le (by omega)]
    rw [h2, h3, List.append_nil]

theorem strSlice_append_drop {l : List Char} {a b : Nat}
    (hab : a ≤ b) :
    strSlice l a b ++ l.drop b = l.drop a := by
  by_cases hb : b ≤ l.length
  · conv_rhs => rw [← List.take_append_drop b l]
    rw [List.drop_append_of_le_length (by rw [List.length_take]; omega)]
    rfl
  · push_neg at hb
    have h2 : l.drop b = [] := List.drop_eq_nil_of_le (by omega)
    have h3 : strSlice l a b = l.drop a := by
      unfold strSlice
      rw [List.take_of_length_le (by omega)]
    rw [h2, h3, List.append_nil]

theorem strSlice_eq_nil_of_ge {l : List Char} {a b : Nat} (h : b ≤ a) :
    strSlice l a b = [] := by
  rw [strSlice_eq_take_drop]
  simp [Nat.sub_eq_zero_of_le h]

theorem length_strSlice {l : List Char} {a b : Nat} (hb : b ≤ l.length) :
    (strSlice l a b).length = b - a := by
  simp [strSlice, Nat.min_eq_left hb]

theorem getLast?_strSlice {l : List Char} {a b : Nat}
    (hab : a < b) (hb : b ≤ l.length) :
    (strSlice l a b).getLast? = l.get? (b - 1) := by
  have hlen : (strSlice l a b).length = b - a := length_strSlice hb
  have hne : strSlice l a b ≠ [] := by
    intro h
    rw [h] at hlen
    simp at hlen
    omega
  rw [List.getLast?_eq_getElem?]
  rw [hlen]
  have hidx : (strSlice l a b)[b - a - 1]? = l[a + (b - a - 1)]? := by
    rw [strSlice_eq_take_drop]
    rw [List.getElem?_take_of_lt (by omega), List.getElem?_drop]
  rw [hidx, List.get?_eq_getElem?]
  congr 1
  omega

theorem getLast?_append_of_ne_nil {a b : List Char} (h : b ≠ []) :
    (a ++ b).getLast? = b.getLast? := by
  induction a with
  | nil => rfl
  | cons c t ih =>
    cases hb : b with
    | nil => exact absurd hb h
    | cons x y =>
      subst hb
      show ((c :: t) ++ x :: y).getLast? = _
      rw [List.getLast?_append_cons]

/-- 0-based enumeration starting at `i` (ferrum's `enumerate` is
`enumFrom 0`). -/
def enumFrom {α : Type} : Nat → List α → List (Nat × α)
  | _, [] => []
  | i, x :: xs => (i, x) :: enumFrom (i + 1) xs

theorem mem_enumFrom {α : Type} {p : Nat × α} :
    ∀ {j : Nat} {l : List α}, p ∈ enumFrom j l → j ≤ p.1 ∧ p.2 ∈ l := by
  intro j l
  induction l generalizing j with
  | nil => intro h; cases h
  | cons x xs ih =>
    intro h
    simp only [enumFrom, List.mem_cons] at h
    rcases h with h | h
    · subst h
      exact ⟨Nat.le_refl _, List.mem_cons_self x xs⟩
    · have := ih h
      exact ⟨Nat.le_trans (Nat.le_succ j) this.1, List.mem_cons_of_mem x this.2⟩

/-! ## Mdast example extraction (`extractFromMdast`, src/index.js:163-185)

The mdast tree produced by remark is external to the repository; §6 of the
spec gives its contract: nodes expose `type`, `children`, and for code nodes
`value`, `lang` and a `position` with 1-based `start.line`/`end.line`. -/

mutual
/-- A node of the markdown AST: `type`, code `value`, `lang` tag, the
1-based `position.start.line`/`position.end.line`, and the child nodes. -/
inductive MdNode : Type where
  | node (ty : String) (value : List Char) (lang : Option String)
      (sLine eLine : Nat) (children : MdForest)
/-- A sequence of sibling markdown AST nodes. -/
inductive MdForest : Type where
  | nil
  | cons (hd : MdNode) (tl : MdForest)
end

def MdNode.ty : MdNode → String
  | .node t _ _ _ _ _ => t

def MdNode.value : MdNode → List Char
  | .node _ v _ _ _ _ => v

def MdNode.lang : MdNode → Option String
  | .node _ _ l _ _ _ => l

def MdNode.sLine : MdNode → Nat
  | .node _ _ _ s _ _ => s

def MdNode.eLine : MdNode → Nat
  | .node _ _ _ _ e _ => e

mutual
/-- Pre-order flattening of the tree, embedding
`flattenTree(ast, (node, rec) => concat([node], rec(node.children || [])))`. -/
def flattenTree : MdNode → List MdNode
  | .node t v l s e cs => .node t v l s e cs :: flattenForest cs
/-- Flattening of a forest of sibling nodes, in order. -/
def flattenForest : MdForest → List MdNode
  | .nil => []
  | .cons n f => flattenTree n ++ flattenForest f
end

/-- JS `code.match(/(^|\n)/g).length`: one empty match at position 0 (which
bumps `lastIndex` to 1), then one match per newline at positions ≥ 1.  A
newline at position 0 is therefore skipped. -/
def jsLineCount (code : List Char) : Nat := 1 + countNl (code.drop 1)

/-- JS `(pos.end.line - pos.start.line) + 1` (on a code node). -/
def posLineCount (n : MdNode) : Nat := n.eLine - n.sLine + 1

/-- The fenced-block detection of `extractFromMdast`:
`codeLineCount !== posLineCount`. -/
def jsIsFenced (n : MdNode) : Bool := jsLineCount n.value ≠ posLineCount n

/-- JS `path.basename`: the final path component (after the last `/`). -/
def basename (s : String) : String :=
  ⟨(s.data.reverse.takeWhile (fun c => ¬ c = '/')).reverse⟩

/-- The name `${file && path.basename(file)} #${idx}` computed by
`extractFromMdast`: a null `file` short-circuits `&&` and is interpolated
as the text `"null"`. -/
def mdName (file : Option String) (idx : Nat) : String :=
  (match file with
   | none => "null"
   | some f => basename f) ++ " #" ++ toString idx

/-- The Example record produced by the mdast extractor
(`{ line, code, lang, file, md, name }`). -/
structure MdEx where
  name : String
  code : List Char
  lang : Option String
  file : Option String
  line : Nat
  md : MdNode

/-- `extractFromMdast(ast, { file })` : flatten the tree, keep the `code`
nodes, enumerate them, and build one Example record per code node, adding
1 to the start line exactly when the fenced-block line-count mismatch is
detected. -/
def extractFromMdast (ast : MdNode) (file : Option String) : List MdEx :=
  (enumFrom 0 ((flattenTree ast).filter (fun n => n.ty = "code"))).map
    (fun p =>
      { name := mdName file p.1
        code := p.2.value
        lang := p.2.lang
        file := file
        line := p.2.sLine + (if jsIsFenced p.2 then 1 else 0)
        md := p.2 })

/-- Modelled from the spec: remark (external to the repository) reports a
*closed fenced* code block's span as including both fence delimiter lines,
so a block whose opening fence is at line `L` with body `b` has
`start.line = L` and `end.line = L + lineCount(b) + 1`. -/
def FencedClosed (n : MdNode) : Prop :=
  n.eLine = n.sLine + countNl n.value + 2

/-- Modelled from the spec: remark (external to the repository) reports an
*indented* code block's span as exactly its body lines, whose first line is
never a blank produced by a leading newline: `start.line = L`,
`end.line = L + lineCount(b) - 1`. -/
def IndentedShape (n : MdNode) : Prop :=
  n.eLine = n.sLine + countNl n.value ∧ n.value.head? ≠ some '\n'

theorem countNl_drop_one_le (l : List Char) : countNl (l.drop 1) ≤ countNl l := by
  cases l with
  | nil => simp
  | cons c r =>
    simp only [List.drop_succ_cons, List.drop_zero, countNl]
    omega

theorem countNl_drop_one_of_head {l : List Char} (h : l.head? ≠ some '\n') :
    countNl (l.drop 1) = countNl l := by
  cases l with
  | nil => rfl
  | cons c r =>
    simp only [List.head?_cons, ne_eq, Option.some_inj] at h
    simp [countNl, h]

theorem jsIsFenced_of_fencedClosed {n : MdNode} (h : FencedClosed n) :
    jsIsFenced n = true := by
  have h1 := countNl_drop_one_le n.value
  simp only [FencedClosed] at h
  simp only [jsIsFenced, posLineCount, jsLineCount, decide_eq_true_eq]
  omega

theorem jsIsFenced_of_indentedShape {n : MdNode} (h : IndentedShape n) :
    jsIsFenced n = false := by
  obtain ⟨h1, h2⟩ := h
  have h3 := countNl_drop_one_of_head h2
  simp only [jsIsFenced, posLineCount, jsLineCount, decide_eq_false_iff_not,
    ne_eq, not_not]
  omega

/-- The code node of the spec's scenario: a fenced ```js block with body
`"a();\nb();"` whose opening fence is at line 5 (so the closing fence is at
line 8, and remark reports the span 5-8). -/
def c2Node : MdNode := .node "code" "a();\nb();".data (some "js") 5 8 .nil

/-- A document tree containing the scenario code node. -/
def c2Ast : MdNode :=
  .node "root" [] none 1 8
    (.cons (.node "paragraph" "x".data none 1 1 .nil) (.cons c2Node .nil))

/-- The record the scenario extraction must produce. -/
def c2Rec : MdEx :=
  { name := "doc.md #0", code := "a();\nb();".data, lang := some "js"
    file := some "doc.md", line := 6, md := c2Node }

/-- An indented code block with body `"c();"` at line 10 (span 10-10). -/
def c2IndNode : MdNode := .node "code" "c();".data none 10 10 .nil

/-- C2: for every markdown document, a fenced code block whose opening fence
is at line `L` yields a record with `line = L + 1`, and an indented block
starting at line `L` yields `line = L`; in the concrete scenario (fenced js
block, body `"a();\nb();"`, fence opening at line 5) the extracted record is
`{code := "a();\nb();", lang := js, line := 6}`. -/
theorem extractFromMdast_fenced_offset :
    (∀ (ast : MdNode) (file : Option String) (r : MdEx),
      r ∈ extractFromMdast ast file →
        (FencedClosed r.md → r.line = r.md.sLine + 1) ∧
        (IndentedShape r.md → r.line = r.md.sLine)) ∧
    extractFromMdast c2Ast (some "doc.md") = [c2Rec] := by
  constructor
  · intro ast file r hr
    simp only [extractFromMdast, List.mem_map] at hr
    obtain ⟨p, hp, rfl⟩ := hr
    constructor
    · intro hf
      simp [jsIsFenced_of_fencedClosed hf]
    · intro hi
      simp [jsIsFenced_of_indentedShape hi]
  · rfl

/-- Witness for C2: the scenario instantiation of the universally quantified
fenced-offset statement. -/
theorem extractFromMdast_fenced_offset_witness :
    FencedClosed c2Node ∧ c2Rec ∈ extractFromMdast c2Ast (some "doc.md") ∧
      c2Rec.line = c2Rec.md.sLine + 1 := by
  have hmem : c2Rec ∈ extractFromMdast c2Ast (some "doc.md") := by
    rw [extractFromMdast_fenced_offset.2]
    exact List.mem_cons_self _ _
  have hfc : FencedClosed c2Node := rfl
  exact ⟨hfc, hmem,
    (extractFromMdast_fenced_offset.1 c2Ast (some "doc.md") c2Rec hmem).1 hfc⟩

/-- C3 counterexample: for the concrete closed fenced block of the scenario
(fence at line 5, body `"a();\nb();"`), the reported line count
`end.line - start.line + 1 = 4` exceeds the number of newline-delimited
lines of the body (`2`) by two, not by exactly one as claimed. -/
theorem mdast_fenced_linecount_counterexample :
    FencedClosed c2Node ∧ posLineCount c2Node = 4 ∧
      (splitNl c2Node.value).length = 2 ∧
      ¬ posLineCount c2Node = (splitNl c2Node.value).length + 1 :=
  ⟨rfl, by decide, by decide, by decide⟩

/-- C3 (amended): a closed fenced block's reported line count exceeds the
body's newline-delimited line count by exactly *two* (both fence delimiter
lines are included in the span); the code detects fenced blocks as a
line-count mismatch, and exactly when the mismatch is detected the recorded
start line is the reported start line plus one; for indented blocks the
counts are equal and the start line is unchanged. -/
theorem mdast_fenced_linecount_amended :
    (∀ n : MdNode, FencedClosed n →
      posLineCount n = (splitNl n.value).length + 2 ∧ jsIsFenced n = true) ∧
    (∀ n : MdNode, IndentedShape n →
      posLineCount n = (splitNl n.value).length ∧ jsIsFenced n = false) ∧
    (∀ (ast : MdNode) (file : Option String) (r : MdEx),
      r ∈ extractFromMdast ast file →
        r.line = r.md.sLine + (if jsIsFenced r.md then 1 else 0)) := by
  refine ⟨?_, ?_, ?_⟩
  · intro n hf
    have h1 := length_splitNl n.value
    have h2 : posLineCount n = countNl n.value + 3 := by
      simp only [posLineCount, FencedClosed] at hf ⊢
      omega
    exact ⟨by omega, jsIsFenced_of_fencedClosed hf⟩
  · intro n hi
    have h1 := length_splitNl n.value
    have h2 : posLineCount n = countNl n.value + 1 := by
      obtain ⟨ha, _⟩ := hi
      simp only [posLineCount]
      omega
    exact ⟨by omega, jsIsFenced_of_indentedShape hi⟩
  · intro ast file r hr
    simp only [extractFromMdast, List.mem_map] at hr
    obtain ⟨p, hp, rfl⟩ := hr
    rfl

/-- Witness for the amended C3 statement, at the scenario's fenced node and
at a concrete indented node. -/
theorem mdast_fenced_linecount_amended_witness :
    FencedClosed c2Node ∧ IndentedShape c2IndNode ∧
      (posLineCount c2Node = (splitNl c2Node.value).length + 2 ∧
        jsIsFenced c2Node = true) ∧
      (posLineCount c2IndNode = (splitNl c2IndNode.value).length ∧
        jsIsFenced c2IndNode = false) := by
  have hfc : FencedClosed c2Node := rfl
  have hin : IndentedShape c2IndNode := ⟨rfl, by decide⟩
  exact ⟨hfc, hin, mdast_fenced_linecount_amended.1 c2Node hfc,
    mdast_fenced_linecount_amended.2.1 c2IndNode hin⟩

/-- The record extracted from the scenario tree when no file is given. -/
def c10Rec : MdEx :=
  { name := "null #0", code := "a();\nb();".data, lang := some "js"
    file := none, line := 6, md := c2Node }

/-- C10: when `extractFromMdast` is called without a file option, every
record has `file = null` and its name is the literal text `"null #<idx>"`
(the falsy file short-circuits the basename computation and is interpolated
as `"null"`). -/
theorem extractFromMdast_no_file_null_name :
    ∀ (ast : MdNode) (r : MdEx), r ∈ extractFromMdast ast none →
      r.file = none ∧ ∃ i : Nat, r.name = "null #" ++ toString i := by
  intro ast r hr
  simp only [extractFromMdast, List.mem_map] at hr
  obtain ⟨p, hp, rfl⟩ := hr
  exact ⟨rfl, ⟨p.1, rfl⟩⟩

/-- Witness for C10 at the concrete scenario tree. -/
theorem extractFromMdast_no_file_null_name_witness :
    c10Rec ∈ extractFromMdast c2Ast none ∧
      (c10Rec.file = none ∧ ∃ i : Nat, c10Rec.name = "null #" ++ toString i) := by
  have hmem : c10Rec ∈ extractFromMdast c2Ast none := by
    have h : extractFromMdast c2Ast none = [c10Rec] := rfl
    rw [h]
    exact List.mem_cons_self _ _
  exact ⟨hmem, extractFromMdast_no_file_null_name c2Ast c10Rec hmem⟩

/-! ## Doc-comment example extraction (`_extractFromDocImpl`, `extractFromDoc`,
src/index.js:238-296)

The documentation object produced by documentation.js is external; §6 of the
spec gives its contract: `loc.start.line`, `context.file`, `description` (an
mdast tree), `tags` (each `{title, description, lineNumber}`), and `path`
(ancestor `{name}` segments). -/

/-- One tagged annotation of a doc comment. -/
structure DocTag where
  title : String
  description : List Char
  lineNumber : Nat

/-- One ancestor segment of a documented symbol's path. -/
structure DocPathSeg where
  name : String

/-- A documentation object for one documented symbol. -/
structure Doc where
  locStartLine : Nat
  file : String
  description : MdNode
  tags : List DocTag
  path : List DocPathSeg

/-- An example record yielded by `_extractFromDocImpl` (it also carries the
`doc` object itself; since every record of one call carries the same `doc`,
the enclosing `Doc` is used directly where the source reads `example.doc`). -/
structure DocEx where
  code : List Char
  lang : Option String
  file : String
  line : Nat

/-- The tag loop of `_extractFromDocImpl`: walk the annotations in order,
yielding one record per `example` tag (with line
`lineNumber + line0 + 1`) and accumulating `descLine0 += lineNumber` for
each `description` tag.  Returns the yielded records and the final
`descLine0`. -/
def tagLoop (line0 : Nat) (file : String) : List DocTag → Nat → List DocEx × Nat
  | [], d => ([], d)
  | t :: ts, d =>
    if t.title = "example" then
      let r := tagLoop line0 file ts d
      (⟨t.description, none, file, t.lineNumber + line0 + 1⟩ :: r.1, r.2)
    else if t.title = "description" then
      tagLoop line0 file ts (d + t.lineNumber)
    else
      tagLoop line0 file ts d

/-- `_extractFromDocImpl(doc)` : records from `example` annotations followed
by records extracted from the markdown description, the latter with lines
shifted by the final `descLine0`. -/
def extractFromDocImpl (doc : Doc) : List DocEx :=
  let r := tagLoop doc.locStartLine doc.file doc.tags doc.locStartLine
  r.1 ++ (extractFromMdast doc.description (some doc.file)).map
    (fun e => ⟨e.code, e.lang, doc.file, e.line + r.2⟩)

/-- Insert one element into an insertion-ordered group list (ferrum `group`
appends to the entry of its key, creating the entry on first sight). -/
def addToGroup (acc : List (String × List DocEx)) (k : String) (x : DocEx) :
    List (String × List DocEx) :=
  match acc with
  | [] => [(k, [x])]
  | (k', ys) :: rest =>
    if k' = k then (k', ys ++ [x]) :: rest
    else (k', ys) :: addToGroup rest k x

/-- Left fold building the insertion-ordered group map. -/
def groupAcc (key : DocEx → String)
    (acc : List (String × List DocEx)) : List DocEx → List (String × List DocEx)
  | [] => acc
  | x :: xs => groupAcc key (addToGroup acc (key x) x) xs

/-- ferrum `group(fn)`: group a sequence by a key function, preserving
insertion order of keys and element order within each group. -/
def ferrumGroup (key : DocEx → String) (xs : List DocEx) :
    List (String × List DocEx) :=
  groupAcc key [] xs

/-- ferrum `join(seq, sep)`. -/
def joinSep (sep : String) : List String → String
  | [] => ""
  | [x] => x
  | x :: y :: r => x ++ sep ++ joinSep sep (y :: r)

/-- A fully named example record as returned by `extractFromDoc`. -/
structure NamedEx where
  name : String
  code : List Char
  lang : Option String
  file : String
  line : Nat

/-- `extractFromDoc(doc)` : group the raw records by the (vestigial) key
`` `${fileName} ${docPath}` `` — both fields are absent from the records, so
the key is the constant text `"undefined undefined"` — then enumerate each
group independently, flatten, and compute each record's name
`` `${basename(file)} ${path.join('::')} #${idx}` ``. -/
def extractFromDoc (doc : Doc) : List NamedEx :=
  let xs := extractFromDocImpl doc
  ((((ferrumGroup (fun _ => "undefined undefined") xs).map Prod.snd).map
      (enumFrom 0)).flatten).map
    (fun p =>
      { name := basename p.2.file ++ " " ++
          joinSep "::" (doc.path.map DocPathSeg.name) ++ " #" ++ toString p.1
        code := p.2.code, lang := p.2.lang, file := p.2.file, line := p.2.line })

/-- Sum of the `lineNumber` offsets of all `description` annotations. -/
def sumDescLines : List DocTag → Nat
  | [] => 0
  | t :: ts => (if t.title = "description" then t.lineNumber else 0) + sumDescLines ts

theorem tagLoop_spec (line0 : Nat) (file : String) :
    ∀ (ts : List DocTag) (d : Nat),
      tagLoop line0 file ts d =
        ((ts.filter (fun t => decide (t.title = "example"))).map
          (fun t => ⟨t.description, none, file, t.lineNumber + line0 + 1⟩),
         d + sumDescLines ts) := by
  intro ts
  induction ts with
  | nil => intro d; simp [tagLoop, sumDescLines]
  | cons t ts ih =>
    intro d
    by_cases h1 : t.title = "example"
    · have h2 : ¬ t.title = "description" := by rw [h1]; decide
      simp [tagLoop, h1, ih, sumDescLines, h2, List.filter_cons]
    · by_cases h2 : t.title = "description"
      · simp only [tagLoop, h1, if_false, if_neg h1, h2, if_true, ih]
        simp [sumDescLines, h2, List.filter_cons, h1]
        omega
      · simp [tagLoop, h1, h2, ih, sumDescLines, List.filter_cons]

/-- C7: every annotation whose tag title is `"example"` yields exactly one
record, with code the annotation body, no language, and line
`lineNumber + commentStartLine + 1`; the remaining records come from the
markdown description, shifted by the accumulated description offset. -/
theorem extractFromDocImpl_example_tags :
    ∀ doc : Doc,
      extractFromDocImpl doc =
        ((doc.tags.filter (fun t => decide (t.title = "example"))).map
          (fun t => ⟨t.description, none, doc.file,
            t.lineNumber + doc.locStartLine + 1⟩)) ++
        (extractFromMdast doc.description (some doc.file)).map
          (fun e => ⟨e.code, e.lang, doc.file,
            e.line + (doc.locStartLine + sumDescLines doc.tags)⟩) := by
  intro doc
  simp only [extractFromDocImpl, tagLoop_spec]

/-- The `(basefile, dottedPath)` naming key of one documented symbol. -/
def docKey (doc : Doc) : String :=
  basename doc.file ++ " " ++ joinSep "::" (doc.path.map DocPathSeg.name)

theorem tagLoop_file_const (line0 : Nat) (file : String) :
    ∀ (ts : List DocTag) (d : Nat) (e : DocEx),
      e ∈ (tagLoop line0 file ts d).1 → e.file = file := by
  intro ts d e he
  rw [tagLoop_spec] at he
  simp only [List.mem_map] at he
  obtain ⟨t, _, rfl⟩ := he
  rfl

theorem extractFromDocImpl_file_const (doc : Doc) :
    ∀ e ∈ extractFromDocImpl doc, e.file = doc.file := by
  intro e he
  simp only [extractFromDocImpl, List.mem_append] at he
  rcases he with he | he
  · exact tagLoop_file_const _ _ _ _ _ he
  · simp only [List.mem_map] at he
    obtain ⟨x, _, rfl⟩ := he
    rfl

theorem groupAcc_const_single (k0 : String) :
    ∀ (xs : List DocEx) (ys : List DocEx),
      groupAcc (fun _ => k0) [(k0, ys)] xs = [(k0, ys ++ xs)] := by
  intro xs
  induction xs with
  | nil => intro ys; simp [groupAcc]
  | cons x xs ih =>
    intro ys
    show groupAcc (fun _ => k0) (addToGroup [(k0, ys)] k0 x) (xs) = _
    have ha : addToGroup [(k0, ys)] k0 x = [(k0, ys ++ [x])] := by
      simp [addToGroup]
    rw [ha, ih]
    simp

theorem ferrumGroup_const (k0 : String) :
    ∀ xs : List DocEx,
      ferrumGroup (fun _ => k0) xs =
        match xs with
        | [] => []
        | x :: rest => [(k0, x :: rest)] := by
  intro xs
  cases xs with
  | nil => rfl
  | cons x rest =>
    show groupAcc (fun _ => k0) (addToGroup [] k0 x) rest = _
    have ha : addToGroup [] k0 x = [(k0, [x])] := rfl
    rw [ha, groupAcc_const_single]
    simp

/-- C6: within one `extractFromDoc` call the naming key is the same for all
records (it is computed from the call's single `doc`), and the records are
numbered by one fresh 0-based counter for that key: the output is exactly
the enumeration of the raw records with names `"<key> #<idx>"`.  Separate
calls (distinct documented symbols, hence distinct keys in the normal case)
each restart at `#0`. -/
theorem extractFromDoc_numbering :
    ∀ doc : Doc,
      extractFromDoc doc =
        (enumFrom 0 (extractFromDocImpl doc)).map
          (fun p =>
            { name := docKey doc ++ " #" ++ toString p.1
              code := p.2.code, lang := p.2.lang, file := p.2.file
              line := p.2.line }) := by
  intro doc
  show ((((ferrumGroup _ (extractFromDocImpl doc)).map Prod.snd).map
      (enumFrom 0)).flatten).map _ = _
  rw [ferrumGroup_const]
  cases hxs : extractFromDocImpl doc with
  | nil => simp [enumFrom]
  | cons x rest =>
    simp only [List.map_cons, List.map_nil, List.flatten_cons, List.flatten_nil]
    rw [List.append_nil]
    apply List.map_congr_left
    intro p hp
    have hfile : p.2.file = doc.file := by
      have hmem : p.2 ∈ extractFromDocImpl doc := by
        rw [hxs]
        exact (mem_enumFrom hp).2
      exact extractFromDocImpl_file_const doc p.2 hmem
    simp only [docKey, hfile]

/-! ## Source-map correlation (`generatingSourceMap`, src/index.js:479-570)

The correlator substitutes a placeholder `<<example:UUID>>` for each
example's code, runs the opaque renderer, then scans the rendered text with
`/([ \t]*)<<example:([0-f]{8}-[0-f]{4}-[0-f]{4}-[0-f]{4}-[0-f]{12})>>/mg`
and splices the original code back in while accumulating source-map
mappings. -/

/-- The fields of an example record read by the correlator
(`let { code, file, line } = exampleCache[uuid]`). -/
structure CRec where
  code : List Char
  file : String
  line : Nat
deriving DecidableEq

/-- One regex match: `index` (start of the whole match, i.e. of the captured
indentation), capture 1 (`indent`) and capture 2 (`uuid`). -/
structure CMatch where
  index : Nat
  indent : List Char
  uuid : List Char
deriving DecidableEq

/-- One source-map mapping as added by `sourceMap.addMapping`. -/
structure Mapping where
  source : String
  origLine : Nat
  origCol : Int
  genLine : Nat
  genCol : Nat
deriving DecidableEq

/-- A character matched by the regex class `[ \t]`. -/
def isWs (c : Char) : Bool := c = ' ' ∨ c = '\t'

/-- A character matched by the regex class `[0-f]` (the literal range from
`'0'` to `'f'`). -/
def isUuidChar (c : Char) : Bool := '0' ≤ c ∧ c ≤ 'f'

def isWsRun (l : List Char) : Bool := l.all isWs

/-- The shape `[0-f]{8}-[0-f]{4}-[0-f]{4}-[0-f]{4}-[0-f]{12}` (36 characters,
dashes at positions 8, 13, 18 and 23). -/
def uuidShapeB (u : List Char) : Bool :=
  decide (u.length = 36) &&
  (List.range 36).all (fun i =>
    if i = 8 ∨ i = 13 ∨ i = 18 ∨ i = 23 then decide (u.getD i ' ' = '-')
    else isUuidChar (u.getD i ' '))

/-- The literal prefix of the placeholder. -/
def lAngleTag : List Char := "<<example:".data

/-- The literal suffix of the placeholder. -/
def rAngleTag : List Char := ">>".data

/-- The placeholder `` `<<example:${id}>>` `` substituted for an example's
code. -/
def placeholderCore (u : List Char) : List Char := lAngleTag ++ u ++ rAngleTag

/-- The whole text of a regex match (capture 1 followed by the placeholder). -/
def matchText (m : CMatch) : List Char := m.indent ++ placeholderCore m.uuid

/-- JS `match.length` for a whole match: indent, `<<example:` (10), uuid (36),
`>>` (2). -/
def matchLen (m : CMatch) : Nat := m.indent.length + 48

/-- Capture 1 (`[ \t]*`): the greedy whitespace run at the scan position. -/
def wsPrefix (s : List Char) : List Char := s.takeWhile isWs

/-- The text after the whitespace run, where the literal placeholder must
follow (inside the whitespace run the pattern cannot resume, since a
whitespace character never begins `<<example:`). -/
def afterWs (s : List Char) : List Char := s.drop (wsPrefix s).length

/-- Attempt the regex at the current scan position (the given suffix of the
text): after the forced maximal whitespace run, `<<example:` (10 chars), a
36-char uuid of the right shape, and `>>` must follow. -/
def tryMatchAt (s : List Char) : Option (List Char × List Char) :=
  if (afterWs s).take 10 = lAngleTag ∧
      uuidShapeB (((afterWs s).drop 10).take 36) = true ∧
      ((afterWs s).drop 46).take 2 = rAngleTag
  then some (wsPrefix s, ((afterWs s).drop 10).take 36)
  else none

/-- The `re.exec` loop: scan left to right, emitting each leftmost match and
resuming after its end (`lastIndex` semantics).  `fuel` is an upper bound on
the number of scan steps; `findAll` supplies a sufficient amount. -/
def findAllAux (gen : List Char) : Nat → Nat → List CMatch
  | 0, _ => []
  | fuel + 1, pos =>
    if gen.length ≤ pos then []
    else
      match tryMatchAt (gen.drop pos) with
      | some (ind, u) =>
        ⟨pos, ind, u⟩ :: findAllAux gen fuel (pos + (ind.length + 48))
      | none => findAllAux gen fuel (pos + 1)

/-- All matches of the placeholder regex over the rendered text, in order. -/
def findAll (gen : List Char) : List CMatch :=
  findAllAux gen (gen.length + 1) 0

/-- Association lookup `exampleCache[uuid]`. -/
def lookupU (u : List Char) : List (List Char × CRec) → Option CRec
  | [] => none
  | (k, v) :: rest => if k = u then some v else lookupU u rest

/-- Association lookup in the per-call source-file cache. -/
def lookupSrc (f : String) : List (String × List (List Char)) → Option (List (List Char))
  | [] => none
  | (k, v) :: rest => if k = f then some v else lookupSrc f rest

/-- The mutable state of the post-processing loop.  `buf` is the joined
output buffer, `srcCache` the per-call source-file cache, and `readLog`
records each actual disk read (for auditing the read-at-most-once claim). -/
structure PState where
  lastMatchEnd : Nat
  outLineNo : Nat
  buf : List Char
  mappings : List Mapping
  srcCache : List (String × List (List Char))
  readLog : List String

/-- The state at entry of the post-processing phase: counters at zero, empty
buffer, and a fresh (empty) source-file cache per call. -/
def initState : PState :=
  { lastMatchEnd := 0, outLineNo := 0, buf := [], mappings := []
    srcCache := [], readLog := [] }

/-- `loadSourceFile`: return the line-split contents of `file`, reading it
(and caching the result) only if it is not in the cache yet. -/
def loadSourceFile (fs : String → List Char) (s : PState) (file : String) :
    List (List Char) × PState :=
  match lookupSrc file s.srcCache with
  | some v => (v, s)
  | none =>
    let v := splitNl (fs file)
    (v, { s with srcCache := (file, v) :: s.srcCache
                 readLog := s.readLog ++ [file] })

/-- The inner loop over `code.split('\n')`: emit `indent ++ line ++ '\n'`,
add one mapping per line (original column recovered from the source file),
and advance the output and input line counters. -/
def emitLoop (fs : String → List Char) (file : String) (outIndent : List Char)
    (outColumn : Nat) : List (List Char) → Nat → PState → PState
  | [], _, s => s
  | line :: rest, inLineNo, s =>
    let load := loadSourceFile fs s file
    let s1 := load.2
    let fileLines := load.1
    emitLoop fs file outIndent outColumn rest (inLineNo + 1)
      { s1 with
        buf := s1.buf ++ outIndent ++ line ++ ['\n']
        mappings := s1.mappings ++
          [{ source := file
             origLine := inLineNo
             origCol := ((fileLines.getD (inLineNo - 1) []).length : Int) -
               (line.length : Int)
             genLine := s1.outLineNo + 1
             genCol := outColumn }]
        outLineNo := s1.outLineNo + 1 }

/-- One iteration of the match loop: emit the text before the match, advance
the output line counter by its newline count, then either splice the
original code (known uuid) or emit the match verbatim (unknown uuid). -/
def stepMatch (gen : List Char) (cache : List (List Char × CRec))
    (fs : String → List Char) (s : PState) (m : CMatch) : PState :=
  let previousText := strSlice gen s.lastMatchEnd m.index
  let s1 := { s with
    buf := s.buf ++ previousText
    outLineNo := s.outLineNo + countNl previousText
    lastMatchEnd := m.index + matchLen m }
  match lookupU m.uuid cache with
  | none => { s1 with buf := s1.buf ++ matchText m }
  | some r => emitLoop fs r.file m.indent m.indent.length (splitNl r.code) r.line s1

/-- The `for (const match of matches)` loop. -/
def runMatches (gen : List Char) (cache : List (List Char × CRec))
    (fs : String → List Char) : List CMatch → PState → PState
  | [], s => s
  | m :: ms, s => runMatches gen cache fs ms (stepMatch gen cache fs s m)

/-- The match loop followed by `buf.push(gen.slice(lastMatchEnd))`. -/
def runTail (gen : List Char) (cache : List (List Char × CRec))
    (fs : String → List Char) (ms : List CMatch) (s : PState) : PState :=
  let s1 := runMatches gen cache fs ms s
  { s1 with buf := s1.buf ++ gen.drop s1.lastMatchEnd }

/-- The whole post-processing phase of `generatingSourceMap`, starting from
a fresh state (in particular an empty per-call source cache). -/
def postProcess (gen : List Char) (cache : List (List Char × CRec))
    (fs : String → List Char) : PState :=
  runTail gen cache fs (findAll gen) initState

/-- The substituted example list handed to the renderer: each record's code
replaced by its placeholder. -/
def substExamples (uuids : List (List Char)) (examples : List CRec) : List CRec :=
  (uuids.zip examples).map (fun p => { p.2 with code := placeholderCore p.1 })

/-- `generatingSourceMap(examples, renderer)` : build the uuid-keyed example
cache, render the substituted examples, and post-process the rendered text
into the output and the source map.  The nondeterministic `uuidgen()` is
modelled by the list of uuids supplied as the first argument; `fs` models
the file system for original-column recovery. -/
def generatingSourceMap (uuids : List (List Char)) (examples : List CRec)
    (renderer : List CRec → List Char) (fs : String → List Char) :
    List Char × List Mapping :=
  let exampleCache := uuids.zip examples
  let gen := renderer (substExamples uuids examples)
  let s := postProcess gen exampleCache fs
  (s.buf, s.mappings)

/-! ### Validity of a match chain -/

/-- Well-formedness of a match list with respect to the scanned text,
starting the scan at `lo`: matches are in order, within bounds, their text
occurs at their index, the captured indent is whitespace and the uuid has
the required shape.  `findAll` only produces valid chains. -/
def validFrom (gen : List Char) : Nat → List CMatch → Bool
  | _, [] => true
  | lo, m :: ms =>
    decide (lo ≤ m.index) &&
    decide (m.index + matchLen m ≤ gen.length) &&
    isWsRun m.indent && uuidShapeB m.uuid &&
    decide (strSlice gen m.index (m.index + matchLen m) = matchText m) &&
    validFrom gen (m.index + matchLen m) ms

/-- The scan position after processing a match chain. -/
def chainEnd : Nat → List CMatch → Nat
  | lo, [] => lo
  | _, m :: ms => chainEnd (m.index + matchLen m) ms

/-- The text emitted for one spliced example: each code line prefixed by the
captured indent and terminated by a newline. -/
def emitBlock (indent : List Char) : List (List Char) → List Char
  | [] => []
  | ln :: rest => indent ++ ln ++ '\n' :: emitBlock indent rest

/-- The text appended to the buffer by the match loop: the untouched spans
between matches interleaved with the substitutions (original code, indented,
one line per emitted line) or, for unknown uuids, the match text itself. -/
def rebuildText (gen : List Char) (cache : List (List Char × CRec)) :
    Nat → List CMatch → List Char
  | _, [] => []
  | lo, m :: ms =>
    strSlice gen lo m.index ++
    (match lookupU m.uuid cache with
     | none => matchText m
     | some r => emitBlock m.indent (splitNl r.code)) ++
    rebuildText gen cache (m.index + matchLen m) ms

/-- The mappings produced for one spliced example, one per code line. -/
def blockMaps (fs : String → List Char) (file : String) (col : Nat) :
    List (List Char) → Nat → Nat → List Mapping
  | [], _, _ => []
  | ln :: rest, inLine, outLine =>
    { source := file
      origLine := inLine
      origCol := (((splitNl (fs file)).getD (inLine - 1) []).length : Int) -
        (ln.length : Int)
      genLine := outLine + 1
      genCol := col } ::
    blockMaps fs file col rest (inLine + 1) (outLine + 1)

/-- The mappings produced by the whole match loop, as a pure function of the
text, the example cache and the file system. -/
def mappingsOf (gen : List Char) (cache : List (List Char × CRec))
    (fs : String → List Char) : Nat → Nat → List CMatch → List Mapping
  | _, _, [] => []
  | lo, outLine, m :: ms =>
    let o2 := outLine + countNl (strSlice gen lo m.index)
    match lookupU m.uuid cache with
    | none => mappingsOf gen cache fs (m.index + matchLen m) o2 ms
    | some r =>
      blockMaps fs r.file m.indent.length (splitNl r.code) r.line o2 ++
      mappingsOf gen cache fs (m.index + matchLen m)
        (o2 + (splitNl r.code).length) ms

/-- The per-call source cache is consistent with the file system: every
cached entry is the line-split contents of its file. -/
def CacheOK (fs : String → List Char) (c : List (String × List (List Char))) : Prop :=
  ∀ p ∈ c, p.2 = splitNl (fs p.1)

/-! ### Properties of the regex scan -/

theorem noNl_of_isWsRun {l : List Char} (h : isWsRun l = true) : noNl l := by
  intro hmem
  have := List.all_eq_true.mp h _ hmem
  simp only [isWs, decide_eq_true_eq] at this
  rcases this with h1 | h1 <;> cases h1

theorem noNl_of_uuidShapeB {u : List Char} (h : uuidShapeB u = true) : noNl u := by
  intro hmem
  simp only [uuidShapeB, Bool.and_eq_true, decide_eq_true_eq] at h
  obtain ⟨hlen, hall⟩ := h
  obtain ⟨i, hilt0, hi⟩ := List.mem_iff_getElem.mp hmem
  have hilt : i < 36 := by omega
  have hrange : i ∈ List.range 36 := List.mem_range.mpr hilt
  have hthis := List.all_eq_true.mp hall _ hrange
  have hgetd : u.getD i ' ' = '\n' := by
    rw [List.getD_eq_getElem?_getD, List.getElem?_eq_getElem hilt0]
    simpa using hi
  by_cases hd : i = 8 ∨ i = 13 ∨ i = 18 ∨ i = 23
  · rw [if_pos hd, hgetd] at hthis
    simp at hthis
  · rw [if_neg hd, hgetd] at hthis
    simp only [isUuidChar, Bool.and_eq_true, decide_eq_true_eq] at hthis
    exact absurd hthis.1 (by decide)

theorem noNl_matchText {m : CMatch} (h1 : isWsRun m.indent = true)
    (h2 : uuidShapeB m.uuid = true) : noNl (matchText m) := by
  have ha : noNl lAngleTag := by simp only [noNl, lAngleTag]; decide
  have hb : noNl rAngleTag := by simp only [noNl, rAngleTag]; decide
  have hind := noNl_of_isWsRun h1
  have hu := noNl_of_uuidShapeB h2
  intro hmem
  simp only [matchText, placeholderCore, List.mem_append, or_assoc] at hmem
  rcases hmem with h | h | h | h
  · exact hind h
  · exact ha h
  · exact hu h
  · exact hb h

theorem countNl_matchText {m : CMatch} (h1 : isWsRun m.indent = true)
    (h2 : uuidShapeB m.uuid = true) : countNl (matchText m) = 0 :=
  countNl_eq_zero_of_noNl (noNl_matchText h1 h2)

theorem take_append_of_length (a b : List Char) (n : Nat) :
    (a ++ b).take (a.length + n) = a ++ b.take n := by
  rw [List.take_add, List.take_left, List.drop_left]

theorem drop_length_takeWhile (p : Char → Bool) (s : List Char) :
    s.drop (s.takeWhile p).length = s.dropWhile p := by
  induction s with
  | nil => rfl
  | cons c r ih =>
    by_cases hc : p c
    · simp only [List.takeWhile_cons, hc, if_true, List.length_cons,
        List.drop_succ_cons, List.dropWhile_cons, ih]
    · simp [List.takeWhile_cons, hc, List.dropWhile_cons]

theorem wsPrefix_append_afterWs (s : List Char) : s = wsPrefix s ++ afterWs s := by
  rw [wsPrefix, afterWs, wsPrefix, drop_length_takeWhile]
  exact (List.takeWhile_append_dropWhile (p := isWs) (l := s)).symm

theorem tryMatchAt_spec {s : List Char} {ind u : List Char}
    (h : tryMatchAt s = some (ind, u)) :
    isWsRun ind = true ∧ uuidShapeB u = true ∧
    s.take (ind.length + 48) = ind ++ placeholderCore u ∧
    ind.length + 48 ≤ s.length := by
  unfold tryMatchAt at h
  by_cases hc : (afterWs s).take 10 = lAngleTag ∧
      uuidShapeB (((afterWs s).drop 10).take 36) = true ∧
      ((afterWs s).drop 46).take 2 = rAngleTag
  · rw [if_pos hc] at h
    have hp := Option.some_inj.mp h
    have hind : wsPrefix s = ind := congrArg Prod.fst hp
    have hu : ((afterWs s).drop 10).take 36 = u := congrArg Prod.snd hp
    obtain ⟨h1, h2, h3⟩ := hc
    rw [hu] at h2
    have hsplit := wsPrefix_append_afterWs s
    have hws : isWsRun ind = true := by
      rw [← hind]
      exact List.all_eq_true.mpr (fun c hcm => List.mem_takeWhile_imp hcm)
    have h10 : 10 ≤ (afterWs s).length := by
      have hlen := congrArg List.length h1
      simp only [List.length_take] at hlen
      have hlA : lAngleTag.length = 10 := rfl
      rw [hlA] at hlen
      omega
    have h48 : 48 ≤ (afterWs s).length := by
      have hlen := congrArg List.length h3
      simp only [List.length_take, List.length_drop] at hlen
      have hlR : rAngleTag.length = 2 := rfl
      rw [hlR] at hlen
      omega
    rw [hind] at hsplit
    refine ⟨hws, h2, ?_, ?_⟩
    · conv_lhs => rw [hsplit]
      rw [take_append_of_length]
      congr 1
      have e1 : (afterWs s).take 48 =
          (afterWs s).take 10 ++ ((afterWs s).drop 10).take 38 := by
        have e : (48 : Nat) = 10 + 38 := rfl
        rw [e, List.take_add]
      have e2 : ((afterWs s).drop 10).take 38 =
          ((afterWs s).drop 10).take 36 ++
            (((afterWs s).drop 10).drop 36).take 2 := by
        have e : (38 : Nat) = 36 + 2 := rfl
        rw [e, List.take_add]
      have e3 : ((afterWs s).drop 10).drop 36 = (afterWs s).drop 46 := by
        rw [List.drop_drop]
      rw [e1, e2, e3, h1, hu, h3, placeholderCore, List.append_assoc]
    · have hlen : s.length = ind.length + (afterWs s).length := by
        conv_lhs => rw [hsplit]
        rw [List.length_append]
      omega
  · rw [if_neg hc] at h
    cases h

theorem validFrom_cons {gen : List Char} {lo : Nat} {m : CMatch} {ms : List CMatch}
    (h : validFrom gen lo (m :: ms) = true) :
    lo ≤ m.index ∧ m.index + matchLen m ≤ gen.length ∧
    isWsRun m.indent = true ∧ uuidShapeB m.uuid = true ∧
    strSlice gen m.index (m.index + matchLen m) = matchText m ∧
    validFrom gen (m.index + matchLen m) ms = true := by
  simp only [validFrom, Bool.and_eq_true, decide_eq_true_eq] at h
  exact ⟨h.1.1.1.1.1, h.1.1.1.1.2, h.1.1.1.2, h.1.1.2, h.1.2, h.2⟩

theorem validFrom_mono {gen : List Char} {lo lo' : Nat} {ms : List CMatch}
    (hle : lo' ≤ lo) (h : validFrom gen lo ms = true) :
    validFrom gen lo' ms = true := by
  cases ms with
  | nil => rfl
  | cons m ms =>
    obtain ⟨h1, h2, h3, h4, h5, h6⟩ := validFrom_cons h
    simp only [validFrom, Bool.and_eq_true, decide_eq_true_eq]
    exact ⟨⟨⟨⟨⟨by omega, h2⟩, h3⟩, h4⟩, h5⟩, h6⟩

theorem findAllAux_valid (gen : List Char) :
    ∀ (fuel pos : Nat), validFrom gen pos (findAllAux gen fuel pos) = true := by
  intro fuel
  induction fuel with
  | zero => intro pos; rfl
  | succ f ih =>
    intro pos
    show validFrom gen pos
      (if gen.length ≤ pos then []
       else match tryMatchAt (gen.drop pos) with
         | some (ind, u) =>
           ⟨pos, ind, u⟩ :: findAllAux gen f (pos + (ind.length + 48))
         | none => findAllAux gen f (pos + 1)) = true
    by_cases hlen : gen.length ≤ pos
    · rw [if_pos hlen]; rfl
    · rw [if_neg hlen]
      cases htry : tryMatchAt (gen.drop pos) with
      | none => simpa using validFrom_mono (Nat.le_succ pos) (ih (pos + 1))
      | some p =>
        obtain ⟨ind, u⟩ := p
        show validFrom gen pos
          (⟨pos, ind, u⟩ :: findAllAux gen f (pos + (ind.length + 48))) = true
        obtain ⟨hws, hshape, htake, hbound⟩ := tryMatchAt_spec htry
        have hlen2 : pos + (ind.length + 48) ≤ gen.length := by
          have := hbound
          rw [List.length_drop] at this
          omega
        have hslice : strSlice gen pos (pos + (ind.length + 48)) =
            ind ++ placeholderCore u := by
          rw [strSlice_eq_take_drop]
          have : pos + (ind.length + 48) - pos = ind.length + 48 := by omega
          rw [this, htake]
        simp only [validFrom, Bool.and_eq_true, decide_eq_true_eq]
        refine ⟨⟨⟨⟨⟨Nat.le_refl _, ?_⟩, hws⟩, hshape⟩, ?_⟩, ?_⟩
        · simpa [matchLen] using hlen2
        · simpa [matchLen, matchText] using hslice
        · simpa [matchLen] using ih (pos + (ind.length + 48))

/-- The matches produced by the scan form a valid chain. -/
theorem findAll_valid (gen : List Char) : validFrom gen 0 (findAll gen) = true :=
  findAllAux_valid gen (gen.length + 1) 0

theorem validFrom_mem {gen : List Char} {lo : Nat} {ms : List CMatch}
    (h : validFrom gen lo ms = true) {m : CMatch} (hm : m ∈ ms) :
    isWsRun m.indent = true ∧ uuidShapeB m.uuid = true ∧
    m.index + matchLen m ≤ gen.length ∧
    strSlice gen m.index (m.index + matchLen m) = matchText m := by
  induction ms generalizing lo with
  | nil => cases hm
  | cons x ms ih =>
    obtain ⟨h1, h2, h3, h4, h5, h6⟩ := validFrom_cons h
    rcases List.mem_cons.mp hm with rfl | hm2
    · exact ⟨h3, h4, h2, h5⟩
    · exact ih h6 hm2

/-! ### State lemmas for the post-processing loop -/

theorem lookupSrc_mem {f : String} {v : List (List Char)}
    {c : List (String × List (List Char))} (h : lookupSrc f c = some v) :
    (f, v) ∈ c := by
  induction c with
  | nil => cases h
  | cons p rest ih =>
    obtain ⟨k, w⟩ := p
    by_cases hk : k = f
    · subst hk
      simp only [lookupSrc, if_true] at h
      rw [Option.some_inj.mp h]
      exact List.mem_cons_self _ _
    · simp only [lookupSrc, hk, if_false, if_neg hk] at h
      exact List.mem_cons_of_mem _ (ih h)

theorem loadSourceFile_state (fs : String → List Char) (s : PState) (file : String) :
    (loadSourceFile fs s file).2.buf = s.buf ∧
    (loadSourceFile fs s file).2.outLineNo = s.outLineNo ∧
    (loadSourceFile fs s file).2.lastMatchEnd = s.lastMatchEnd ∧
    (loadSourceFile fs s file).2.mappings = s.mappings := by
  cases h : lookupSrc file s.srcCache <;> simp [loadSourceFile, h]

theorem loadSourceFile_val {fs : String → List Char} {s : PState} {file : String}
    (h : CacheOK fs s.srcCache) :
    (loadSourceFile fs s file).1 = splitNl (fs file) ∧
    CacheOK fs (loadSourceFile fs s file).2.srcCache := by
  cases hl : lookupSrc file s.srcCache with
  | none =>
    refine ⟨by simp [loadSourceFile, hl], ?_⟩
    intro p hp
    simp only [loadSourceFile, hl, List.mem_cons] at hp
    rcases hp with rfl | hp
    · rfl
    · exact h p hp
  | some v =>
    have hv : v = splitNl (fs file) := h (file, v) (lookupSrc_mem hl)
    exact ⟨by simp [loadSourceFile, hl, hv], by simpa [loadSourceFile, hl] using h⟩

theorem countNl_emitBlock {ind : List Char} (hind : noNl ind) :
    ∀ lns : List (List Char), (∀ ln ∈ lns, noNl ln) →
      countNl (emitBlock ind lns) = lns.length := by
  intro lns
  induction lns with
  | nil => intro _; rfl
  | cons ln rest ih =>
    intro hln
    have h1 : noNl ln := hln ln (List.mem_cons_self _ _)
    have h2 := ih (fun x hx => hln x (List.mem_cons_of_mem _ hx))
    show countNl (ind ++ ln ++ '\n' :: emitBlock ind rest) = rest.length + 1
    rw [countNl_append, countNl_append]
    have e : countNl ('\n' :: emitBlock ind rest) = 1 + countNl (emitBlock ind rest) := by
      simp [countNl]
    rw [e, h2, countNl_eq_zero_of_noNl hind, countNl_eq_zero_of_noNl h1]
    omega

theorem emitBlock_ne_nil (ind : List Char) (ln : List Char)
    (rest : List (List Char)) : emitBlock ind (ln :: rest) ≠ [] := by
  show ind ++ ln ++ '\n' :: emitBlock ind rest ≠ []
  simp

theorem endsNl_emitBlock (ind : List Char) :
    ∀ (lns : List (List Char)), lns ≠ [] →
      (emitBlock ind lns).getLast? = some '\n' := by
  intro lns
  induction lns with
  | nil => intro h; cases h rfl
  | cons ln rest ih =>
    intro _
    show (ind ++ ln ++ '\n' :: emitBlock ind rest).getLast? = some '\n'
    rw [getLast?_append_of_ne_nil (a := ind ++ ln)
        (b := '\n' :: emitBlock ind rest) (by simp)]
    cases he : emitBlock ind rest with
    | nil => rfl
    | cons a t =>
      rw [List.getLast?_cons_cons, ← he]
      apply ih
      intro hrest
      subst hrest
      simp only [emitBlock] at he
      cases he

theorem emitLoop_state (fs : String → List Char) (file : String)
    (ind : List Char) (col : Nat) :
    ∀ (lns : List (List Char)) (inLine : Nat) (s : PState),
      (emitLoop fs file ind col lns inLine s).buf = s.buf ++ emitBlock ind lns ∧
      (emitLoop fs file ind col lns inLine s).outLineNo = s.outLineNo + lns.length ∧
      (emitLoop fs file ind col lns inLine s).lastMatchEnd = s.lastMatchEnd := by
  intro lns
  induction lns with
  | nil => intro inLine s; simp [emitLoop, emitBlock]
  | cons ln rest ih =>
    intro inLine s
    obtain ⟨hb, ho, hl, hm⟩ := loadSourceFile_state fs s file
    have hemit : emitLoop fs file ind col (ln :: rest) inLine s =
        emitLoop fs file ind col rest (inLine + 1)
          ({ (loadSourceFile fs s file).2 with
        buf := (loadSourceFile fs s file).2.buf ++ ind ++ ln ++ ['\n']
        mappings := (loadSourceFile fs s file).2.mappings ++
          [{ source := file
             origLine := inLine
             origCol := (((loadSourceFile fs s file).1.getD (inLine - 1) []).length : Int) -
               (ln.length : Int)
             genLine := (loadSourceFile fs s file).2.outLineNo + 1
             genCol := col }]
        outLineNo := (loadSourceFile fs s file).2.outLineNo + 1 }) := rfl
    have hstep := ih (inLine + 1)
      ({ (loadSourceFile fs s file).2 with
        buf := (loadSourceFile fs s file).2.buf ++ ind ++ ln ++ ['\n']
        mappings := (loadSourceFile fs s file).2.mappings ++
          [{ source := file
             origLine := inLine
             origCol := (((loadSourceFile fs s file).1.getD (inLine - 1) []).length : Int) -
               (ln.length : Int)
             genLine := (loadSourceFile fs s file).2.outLineNo + 1
             genCol := col }]
        outLineNo := (loadSourceFile fs s file).2.outLineNo + 1 })
    refine ⟨?_, ?_, ?_⟩
    · rw [hemit, hstep.1]
      simp only [hb, emitBlock]
      simp [List.append_assoc]
    · rw [hemit, hstep.2.1]
      simp only [ho, List.length_cons]
      omega
    · rw [hemit, hstep.2.2]
      exact hl

theorem emitLoop_maps (fs : String → List Char) (file : String)
    (ind : List Char) (col : Nat) :
    ∀ (lns : List (List Char)) (inLine : Nat) (s : PState),
      CacheOK fs s.srcCache →
      (emitLoop fs file ind col lns inLine s).mappings =
        s.mappings ++ blockMaps fs file col lns inLine s.outLineNo ∧
      CacheOK fs (emitLoop fs file ind col lns inLine s).srcCache := by
  intro lns
  induction lns with
  | nil => intro inLine s hc; exact ⟨by simp [emitLoop, blockMaps], hc⟩
  | cons ln rest ih =>
    intro inLine s hc
    obtain ⟨hb, ho, hl, hm⟩ := loadSourceFile_state fs s file
    obtain ⟨hval, hcache⟩ := @loadSourceFile_val fs s file hc
    have hemit : emitLoop fs file ind col (ln :: rest) inLine s =
        emitLoop fs file ind col rest (inLine + 1)
          ({ (loadSourceFile fs s file).2 with
        buf := (loadSourceFile fs s file).2.buf ++ ind ++ ln ++ ['\n']
        mappings := (loadSourceFile fs s file).2.mappings ++
          [{ source := file
             origLine := inLine
             origCol := (((loadSourceFile fs s file).1.getD (inLine - 1) []).length : Int) -
               (ln.length : Int)
             genLine := (loadSourceFile fs s file).2.outLineNo + 1
             genCol := col }]
        outLineNo := (loadSourceFile fs s file).2.outLineNo + 1 }) := rfl
    have hstep := ih (inLine + 1)
      ({ (loadSourceFile fs s file).2 with
        buf := (loadSourceFile fs s file).2.buf ++ ind ++ ln ++ ['\n']
        mappings := (loadSourceFile fs s file).2.mappings ++
          [{ source := file
             origLine := inLine
             origCol := (((loadSourceFile fs s file).1.getD (inLine - 1) []).length : Int) -
               (ln.length : Int)
             genLine := (loadSourceFile fs s file).2.outLineNo + 1
             genCol := col }]
        outLineNo := (loadSourceFile fs s file).2.outLineNo + 1 })
      (by simpa using hcache)
    refine ⟨?_, ?_⟩
    · rw [hemit, hstep.1]
      simp only [hm, ho, hval, blockMaps]
      simp [List.append_assoc]
    · rw [hemit]
      exact hstep.2

theorem stepMatch_none {gen : List Char} {cache : List (List Char × CRec)}
    {fs : String → List Char} {s : PState} {m : CMatch}
    (h : lookupU m.uuid cache = none) :
    stepMatch gen cache fs s m =
      { s with
        buf := (s.buf ++ strSlice gen s.lastMatchEnd m.index) ++ matchText m
        outLineNo := s.outLineNo + countNl (strSlice gen s.lastMatchEnd m.index)
        lastMatchEnd := m.index + matchLen m } := by
  simp [stepMatch, h]

theorem stepMatch_some {gen : List Char} {cache : List (List Char × CRec)}
    {fs : String → List Char} {s : PState} {m : CMatch} {r : CRec}
    (h : lookupU m.uuid cache = some r) :
    stepMatch gen cache fs s m =
      emitLoop fs r.file m.indent m.indent.length (splitNl r.code) r.line
        { s with
          buf := s.buf ++ strSlice gen s.lastMatchEnd m.index
          outLineNo := s.outLineNo + countNl (strSlice gen s.lastMatchEnd m.index)
          lastMatchEnd := m.index + matchLen m } := by
  simp [stepMatch, h]

theorem runMatches_state (gen : List Char) (cache : List (List Char × CRec))
    (fs : String → List Char) :
    ∀ (ms : List CMatch) (s : PState),
      validFrom gen s.lastMatchEnd ms = true →
      (runMatches gen cache fs ms s).buf =
        s.buf ++ rebuildText gen cache s.lastMatchEnd ms ∧
      (runMatches gen cache fs ms s).outLineNo =
        s.outLineNo + countNl (rebuildText gen cache s.lastMatchEnd ms) ∧
      (runMatches gen cache fs ms s).lastMatchEnd = chainEnd s.lastMatchEnd ms := by
  intro ms
  induction ms with
  | nil => intro s _; simp [runMatches, rebuildText, chainEnd, countNl]
  | cons m ms ih =>
    intro s hv
    obtain ⟨h1, h2, h3, h4, h5, h6⟩ := validFrom_cons hv
    cases hcl : lookupU m.uuid cache with
    | none =>
      have hstep := @stepMatch_none gen cache fs s m hcl
      have hrec := ih ({ s with
          buf := (s.buf ++ strSlice gen s.lastMatchEnd m.index) ++ matchText m
          outLineNo := s.outLineNo + countNl (strSlice gen s.lastMatchEnd m.index)
          lastMatchEnd := m.index + matchLen m }) (by simpa using h6)
      have hrw : rebuildText gen cache s.lastMatchEnd (m :: ms) =
          strSlice gen s.lastMatchEnd m.index ++ matchText m ++
            rebuildText gen cache (m.index + matchLen m) ms := by
        simp [rebuildText, hcl]
      refine ⟨?_, ?_, ?_⟩
      · show (runMatches gen cache fs ms (stepMatch gen cache fs s m)).buf = _
        rw [hstep, hrec.1, hrw]
        simp [List.append_assoc]
      · show (runMatches gen cache fs ms (stepMatch gen cache fs s m)).outLineNo = _
        rw [hstep, hrec.2.1, hrw]
        simp only [countNl_append, countNl_matchText h3 h4]
        omega
      · show (runMatches gen cache fs ms (stepMatch gen cache fs s m)).lastMatchEnd = _
        rw [hstep, hrec.2.2]
        simp [chainEnd]
    | some r =>
      have hstep := @stepMatch_some gen cache fs s m r hcl
      have hmid := emitLoop_state fs r.file m.indent m.indent.length
        (splitNl r.code) r.line
        ({ s with
          buf := s.buf ++ strSlice gen s.lastMatchEnd m.index
          outLineNo := s.outLineNo + countNl (strSlice gen s.lastMatchEnd m.index)
          lastMatchEnd := m.index + matchLen m })
      have hrec := ih (emitLoop fs r.file m.indent m.indent.length (splitNl r.code)
          r.line
          { s with
            buf := s.buf ++ strSlice gen s.lastMatchEnd m.index
            outLineNo := s.outLineNo + countNl (strSlice gen s.lastMatchEnd m.index)
            lastMatchEnd := m.index + matchLen m })
        (by rw [hmid.2.2]; simpa using h6)
      have hrw : rebuildText gen cache s.lastMatchEnd (m :: ms) =
          strSlice gen s.lastMatchEnd m.index ++
            emitBlock m.indent (splitNl r.code) ++
            rebuildText gen cache (m.index + matchLen m) ms := by
        simp [rebuildText, hcl]
      have hcnt : countNl (emitBlock m.indent (splitNl r.code)) =
          (splitNl r.code).length :=
        countNl_emitBlock (noNl_of_isWsRun h3) _ (fun ln hln => mem_splitNl_noNl hln)
      refine ⟨?_, ?_, ?_⟩
      · show (runMatches gen cache fs ms (stepMatch gen cache fs s m)).buf = _
        rw [hstep, hrec.1, hmid.1, hmid.2.2, hrw]
        simp [List.append_assoc]
      · show (runMatches gen cache fs ms (stepMatch gen cache fs s m)).outLineNo = _
        rw [hstep, hrec.2.1, hmid.2.1, hmid.2.2, hrw]
        simp only [countNl_append, hcnt]
        omega
      · show (runMatches gen cache fs ms (stepMatch gen cache fs s m)).lastMatchEnd = _
        rw [hstep, hrec.2.2, hmid.2.2]
        simp [chainEnd]

theorem runMatches_maps (gen : List Char) (cache : List (List Char × CRec))
    (fs : String → List Char) :
    ∀ (ms : List CMatch) (s : PState),
      validFrom gen s.lastMatchEnd ms = true →
      CacheOK fs s.srcCache →
      (runMatches gen cache fs ms s).mappings =
        s.mappings ++ mappingsOf gen cache fs s.lastMatchEnd s.outLineNo ms ∧
      CacheOK fs (runMatches gen cache fs ms s).srcCache := by
  intro ms
  induction ms with
  | nil => intro s _ hc; exact ⟨by simp [runMatches, mappingsOf], hc⟩
  | cons m ms ih =>
    intro s hv hc
    obtain ⟨h1, h2, h3, h4, h5, h6⟩ := validFrom_cons hv
    cases hcl : lookupU m.uuid cache with
    | none =>
      have hstep := @stepMatch_none gen cache fs s m hcl
      have hrec := ih ({ s with
          buf := (s.buf ++ strSlice gen s.lastMatchEnd m.index) ++ matchText m
          outLineNo := s.outLineNo + countNl (strSlice gen s.lastMatchEnd m.index)
          lastMatchEnd := m.index + matchLen m }) (by simpa using h6) (by simpa using hc)
      refine ⟨?_, ?_⟩
      · show (runMatches gen cache fs ms (stepMatch gen cache fs s m)).mappings = _
        rw [hstep, hrec.1]
        simp [mappingsOf, hcl]
      · show CacheOK fs (runMatches gen cache fs ms (stepMatch gen cache fs s m)).srcCache
        rw [hstep]
        exact hrec.2
    | some r =>
      have hstep := @stepMatch_some gen cache fs s m r hcl
      have hpre : CacheOK fs ({ s with
          buf := s.buf ++ strSlice gen s.lastMatchEnd m.index
          outLineNo := s.outLineNo + countNl (strSlice gen s.lastMatchEnd m.index)
          lastMatchEnd := m.index + matchLen m } : PState).srcCache := by simpa using hc
      have hmid := emitLoop_maps fs r.file m.indent m.indent.length
        (splitNl r.code) r.line
        ({ s with
          buf := s.buf ++ strSlice gen s.lastMatchEnd m.index
          outLineNo := s.outLineNo + countNl (strSlice gen s.lastMatchEnd m.index)
          lastMatchEnd := m.index + matchLen m }) hpre
      have hst := emitLoop_state fs r.file m.indent m.indent.length
        (splitNl r.code) r.line
        ({ s with
          buf := s.buf ++ strSlice gen s.lastMatchEnd m.index
          outLineNo := s.outLineNo + countNl (strSlice gen s.lastMatchEnd m.index)
          lastMatchEnd := m.index + matchLen m })
      have hrec := ih (emitLoop fs r.file m.indent m.indent.length (splitNl r.code)
          r.line
          { s with
            buf := s.buf ++ strSlice gen s.lastMatchEnd m.index
            outLineNo := s.outLineNo + countNl (strSlice gen s.lastMatchEnd m.index)
            lastMatchEnd := m.index + matchLen m })
        (by rw [hst.2.2]; simpa using h6) hmid.2
      refine ⟨?_, ?_⟩
      · show (runMatches gen cache fs ms (stepMatch gen cache fs s m)).mappings = _
        rw [hstep, hrec.1, hmid.1, hst.2.1, hst.2.2]
        simp only [mappingsOf, hcl]
        simp [List.append_assoc]
      · show CacheOK fs (runMatches gen cache fs ms (stepMatch gen cache fs s m)).srcCache
        rw [hstep]
        exact hrec.2

/-! ### The per-call source cache reads each file at most once -/

/-- The read log is duplicate-free and every logged file is in the cache. -/
def LogOK (s : PState) : Prop :=
  s.readLog.Nodup ∧ ∀ f ∈ s.readLog, (lookupSrc f s.srcCache).isSome

theorem lookupSrc_cons_isSome {f k : String} {v : List (List Char)}
    {c : List (String × List (List Char))} (h : (lookupSrc f c).isSome) :
    (lookupSrc f ((k, v) :: c)).isSome := by
  by_cases hk : k = f <;> simp [lookupSrc, hk, h]

theorem loadSourceFile_log {fs : String → List Char} {s : PState} {file : String}
    (h : LogOK s) : LogOK (loadSourceFile fs s file).2 := by
  cases hl : lookupSrc file s.srcCache with
  | some v => simpa [loadSourceFile, hl] using h
  | none =>
    obtain ⟨hnd, hin⟩ := h
    have hnotin : file ∉ s.readLog := by
      intro hmem
      have := hin file hmem
      rw [hl] at this
      cases this
    have heq : (loadSourceFile fs s file).2 =
        { s with srcCache := (file, splitNl (fs file)) :: s.srcCache
                 readLog := s.readLog ++ [file] } := by
      simp [loadSourceFile, hl]
    rw [LogOK, heq]
    constructor
    · show (s.readLog ++ [file]).Nodup
      rw [List.nodup_append]
      exact ⟨hnd, List.nodup_singleton _, by
        intro x hx hx2
        simp only [List.mem_singleton] at hx2
        exact hnotin (hx2 ▸ hx)⟩
    · intro f hf
      show (lookupSrc f ((file, splitNl (fs file)) :: s.srcCache)).isSome
      simp only [List.mem_append, List.mem_singleton] at hf
      rcases hf with hf | rfl
      · exact lookupSrc_cons_isSome (hin f hf)
      · simp [lookupSrc]

theorem emitLoop_log (fs : String → List Char) (file : String)
    (ind : List Char) (col : Nat) :
    ∀ (lns : List (List Char)) (inLine : Nat) (s : PState),
      LogOK s → LogOK (emitLoop fs file ind col lns inLine s) := by
  intro lns
  induction lns with
  | nil => intro inLine s h; exact h
  | cons ln rest ih =>
    intro inLine s h
    have hload := @loadSourceFile_log fs s file h
    exact ih (inLine + 1) _ (by simpa using hload)

theorem stepMatch_log {gen : List Char} {cache : List (List Char × CRec)}
    {fs : String → List Char} {s : PState} {m : CMatch}
    (h : LogOK s) : LogOK (stepMatch gen cache fs s m) := by
  cases hcl : lookupU m.uuid cache with
  | none =>
    rw [stepMatch_none hcl]
    exact h
  | some r =>
    rw [stepMatch_some hcl]
    exact emitLoop_log fs r.file m.indent m.indent.length _ r.line _ (by simpa using h)

theorem runMatches_log (gen : List Char) (cache : List (List Char × CRec))
    (fs : String → List Char) :
    ∀ (ms : List CMatch) (s : PState),
      LogOK s → LogOK (runMatches gen cache fs ms s) := by
  intro ms
  induction ms with
  | nil => intro s h; exact h
  | cons m ms ih => intro s h; exact ih _ (stepMatch_log h)

/-- C9: within one post-processing call, each distinct source file is read
from disk at most once (the read log is duplicate-free), no matter how many
code lines or examples reference it; the source cache starts empty at each
call (`postProcess` starts from `initState`), so it is never shared across
render invocations. -/
theorem sourceCache_read_once (gen : List Char) (cache : List (List Char × CRec))
    (fs : String → List Char) :
    (postProcess gen cache fs).readLog.Nodup ∧
    ∀ f ∈ (postProcess gen cache fs).readLog,
      (lookupSrc f (postProcess gen cache fs).srcCache).isSome := by
  have hinit : LogOK initState := ⟨List.nodup_nil, by intro f hf; cases hf⟩
  have h := runMatches_log gen cache fs (findAll gen) initState hinit
  exact ⟨h.1, h.2⟩

/-- C5: the correlator emits the span of text between the end of the
previous match and the start of the current match unchanged (the output
buffer is exactly the inter-match slices interleaved with the
substitutions), and the running output line counter advances by exactly the
newline count of the appended text — also when a span contains zero
newlines — with every step total (no exception is modelled; the ferrum
`size(null)` result for a zero-newline span is modelled from the spec as
zero). -/
theorem interMatch_span_emission (gen : List Char)
    (cache : List (List Char × CRec)) (fs : String → List Char)
    (ms : List CMatch) (s : PState)
    (hv : validFrom gen s.lastMatchEnd ms = true) :
    (runMatches gen cache fs ms s).buf =
      s.buf ++ rebuildText gen cache s.lastMatchEnd ms ∧
    (runMatches gen cache fs ms s).outLineNo =
      s.outLineNo + countNl (rebuildText gen cache s.lastMatchEnd ms) := by
  have h := runMatches_state gen cache fs ms s hv
  exact ⟨h.1, h.2.1⟩

/-! ### An unrecognized placeholder is a safe pass-through -/

theorem validFrom_drop_middle (gen : List Char) {m : CMatch} :
    ∀ (ws : List CMatch) (lo : Nat) (zs : List CMatch),
      validFrom gen lo (ws ++ m :: zs) = true →
      validFrom gen lo (ws ++ zs) = true := by
  intro ws
  induction ws with
  | nil =>
    intro lo zs hv
    obtain ⟨h1, h2, h3, h4, h5, h6⟩ := validFrom_cons (by simpa using hv)
    exact validFrom_mono (Nat.le_trans h1 (Nat.le_add_right _ _)) h6
  | cons w ws ih =>
    intro lo zs hv
    obtain ⟨h1, h2, h3, h4, h5, h6⟩ := validFrom_cons (by simpa using hv)
    show validFrom gen lo (w :: (ws ++ zs)) = true
    simp only [validFrom, Bool.and_eq_true, decide_eq_true_eq]
    exact ⟨⟨⟨⟨⟨h1, h2⟩, h3⟩, h4⟩, h5⟩, ih _ _ h6⟩

theorem countNl_strSlice_split (gen : List Char) {a b c : Nat}
    (hab : a ≤ b) (hbc : b ≤ c) :
    countNl (strSlice gen a c) =
      countNl (strSlice gen a b) + countNl (strSlice gen b c) := by
  rw [← strSlice_append_strSlice hab hbc, countNl_append]

theorem mappingsOf_start_eq (gen : List Char) (cache : List (List Char × CRec))
    (fs : String → List Char) (z : CMatch) (zs : List CMatch)
    {lo1 lo2 out1 out2 : Nat}
    (h : out1 + countNl (strSlice gen lo1 z.index) =
      out2 + countNl (strSlice gen lo2 z.index)) :
    mappingsOf gen cache fs lo1 out1 (z :: zs) =
      mappingsOf gen cache fs lo2 out2 (z :: zs) := by
  simp only [mappingsOf]
  rw [h]

theorem mappingsOf_drop_unknown (gen : List Char)
    (cache : List (List Char × CRec)) (fs : String → List Char) {m : CMatch}
    (hm : lookupU m.uuid cache = none) :
    ∀ (ws : List CMatch) (lo out : Nat) (zs : List CMatch),
      validFrom gen lo (ws ++ m :: zs) = true →
      mappingsOf gen cache fs lo out (ws ++ m :: zs) =
        mappingsOf gen cache fs lo out (ws ++ zs) := by
  intro ws
  induction ws with
  | nil =>
    intro lo out zs hv
    obtain ⟨h1, h2, h3, h4, h5, h6⟩ := validFrom_cons (by simpa using hv)
    show mappingsOf gen cache fs lo out (m :: zs) = mappingsOf gen cache fs lo out zs
    cases zs with
    | nil => simp [mappingsOf, hm]
    | cons z zs' =>
      obtain ⟨hz1, _, _, _, _, _⟩ := validFrom_cons h6
      have hmt : countNl (strSlice gen m.index (m.index + matchLen m)) = 0 := by
        rw [h5]; exact countNl_matchText h3 h4
      have hs1 : countNl (strSlice gen lo z.index) =
          countNl (strSlice gen lo m.index) +
            countNl (strSlice gen m.index z.index) :=
        countNl_strSlice_split gen h1 (Nat.le_trans (Nat.le_add_right _ _) hz1)
      have hs2 : countNl (strSlice gen m.index z.index) =
          countNl (strSlice gen m.index (m.index + matchLen m)) +
            countNl (strSlice gen (m.index + matchLen m) z.index) :=
        countNl_strSlice_split gen (Nat.le_add_right _ _) hz1
      have hstep : mappingsOf gen cache fs lo out (m :: z :: zs') =
          mappingsOf gen cache fs (m.index + matchLen m)
            (out + countNl (strSlice gen lo m.index)) (z :: zs') := by
        simp [mappingsOf, hm]
      rw [hstep]
      exact mappingsOf_start_eq gen cache fs z zs' (by omega)
  | cons w ws ih =>
    intro lo out zs hv
    obtain ⟨h1, h2, h3, h4, h5, h6⟩ := validFrom_cons (by simpa using hv)
    show mappingsOf gen cache fs lo out (w :: (ws ++ m :: zs)) =
      mappingsOf gen cache fs lo out (w :: (ws ++ zs))
    simp only [mappingsOf]
    cases hclw : lookupU w.uuid cache with
    | none => exact ih _ _ _ h6
    | some r =>
      exact congrArg
        (fun t => blockMaps fs r.file w.indent.length (splitNl r.code) r.line
          (out + countNl (strSlice gen lo w.index)) ++ t)
        (ih (w.index + matchLen w)
          (out + countNl (strSlice gen lo w.index) + (splitNl r.code).length)
          zs h6)

theorem rebuild_tail_drop_unknown (gen : List Char)
    (cache : List (List Char × CRec)) {m : CMatch}
    (hm : lookupU m.uuid cache = none) :
    ∀ (ws : List CMatch) (lo : Nat) (zs : List CMatch),
      validFrom gen lo (ws ++ m :: zs) = true →
      rebuildText gen cache lo (ws ++ m :: zs) ++
          gen.drop (chainEnd lo (ws ++ m :: zs)) =
        rebuildText gen cache lo (ws ++ zs) ++
          gen.drop (chainEnd lo (ws ++ zs)) := by
  intro ws
  induction ws with
  | nil =>
    intro lo zs hv
    simp only [List.nil_append] at hv ⊢
    obtain ⟨h1, h2, h3, h4, h5, h6⟩ := validFrom_cons hv
    have hre : rebuildText gen cache lo (m :: zs) =
        strSlice gen lo m.index ++ matchText m ++
          rebuildText gen cache (m.index + matchLen m) zs := by
      simp [rebuildText, hm]
    have hce : chainEnd lo (m :: zs) = chainEnd (m.index + matchLen m) zs := rfl
    rw [hre, hce]
    cases zs with
    | nil =>
      show (strSlice gen lo m.index ++ matchText m ++ []) ++
          gen.drop (m.index + matchLen m) = [] ++ gen.drop lo
      rw [← h5]
      simp only [List.append_nil, List.nil_append, List.append_assoc]
      rw [strSlice_append_drop (Nat.le_add_right _ _), strSlice_append_drop h1]
    | cons z zs' =>
      obtain ⟨hz1, _, _, _, _, _⟩ := validFrom_cons h6
      have hre2 : rebuildText gen cache (m.index + matchLen m) (z :: zs') =
          strSlice gen (m.index + matchLen m) z.index ++
            (match lookupU z.uuid cache with
             | none => matchText z
             | some r => emitBlock z.indent (splitNl r.code)) ++
            rebuildText gen cache (z.index + matchLen z) zs' := rfl
      have hre3 : rebuildText gen cache lo (z :: zs') =
          strSlice gen lo z.index ++
            (match lookupU z.uuid cache with
             | none => matchText z
             | some r => emitBlock z.indent (splitNl r.code)) ++
            rebuildText gen cache (z.index + matchLen z) zs' := rfl
      have hce2 : chainEnd (m.index + matchLen m) (z :: zs') =
          chainEnd (z.index + matchLen z) zs' := rfl
      have hce3 : chainEnd lo (z :: zs') = chainEnd (z.index + matchLen z) zs' := rfl
      have hglue : strSlice gen lo m.index ++ (matchText m ++
          strSlice gen (m.index + matchLen m) z.index) = strSlice gen lo z.index := by
        rw [← h5, strSlice_append_strSlice (Nat.le_add_right _ _) hz1,
          strSlice_append_strSlice h1
            (Nat.le_trans (Nat.le_add_right _ _) hz1)]
      rw [hre2, hre3, hce2, hce3]
      calc (strSlice gen lo m.index ++ matchText m ++
            (strSlice gen (m.index + matchLen m) z.index ++
              (match lookupU z.uuid cache with
               | none => matchText z
               | some r => emitBlock z.indent (splitNl r.code)) ++
              rebuildText gen cache (z.index + matchLen z) zs')) ++
            gen.drop (chainEnd (z.index + matchLen z) zs')
          = (strSlice gen lo m.index ++ (matchText m ++
              strSlice gen (m.index + matchLen m) z.index)) ++
            (((match lookupU z.uuid cache with
               | none => matchText z
               | some r => emitBlock z.indent (splitNl r.code)) ++
              rebuildText gen cache (z.index + matchLen z) zs') ++
              gen.drop (chainEnd (z.index + matchLen z) zs')) := by
            simp [List.append_assoc]
        _ = (strSlice gen lo z.index ++
            (match lookupU z.uuid cache with
             | none => matchText z
             | some r => emitBlock z.indent (splitNl r.code)) ++
            rebuildText gen cache (z.index + matchLen z) zs') ++
            gen.drop (chainEnd (z.index + matchLen z) zs') := by
            rw [hglue]
            simp [List.append_assoc]
  | cons w ws ih =>
    intro lo zs hv
    obtain ⟨h1, h2, h3, h4, h5, h6⟩ := validFrom_cons (by simpa using hv)
    have hre1 : rebuildText gen cache lo ((w :: ws) ++ m :: zs) =
        strSlice gen lo w.index ++
          (match lookupU w.uuid cache with
           | none => matchText w
           | some r => emitBlock w.indent (splitNl r.code)) ++
          rebuildText gen cache (w.index + matchLen w) (ws ++ m :: zs) := rfl
    have hre2 : rebuildText gen cache lo ((w :: ws) ++ zs) =
        strSlice gen lo w.index ++
          (match lookupU w.uuid cache with
           | none => matchText w
           | some r => emitBlock w.indent (splitNl r.code)) ++
          rebuildText gen cache (w.index + matchLen w) (ws ++ zs) := rfl
    have hce1 : chainEnd lo ((w :: ws) ++ m :: zs) =
        chainEnd (w.index + matchLen w) (ws ++ m :: zs) := rfl
    have hce2 : chainEnd lo ((w :: ws) ++ zs) =
        chainEnd (w.index + matchLen w) (ws ++ zs) := rfl
    rw [hre1, hre2, hce1, hce2]
    have hih := ih (w.index + matchLen w) zs h6
    calc (strSlice gen lo w.index ++
          (match lookupU w.uuid cache with
           | none => matchText w
           | some r => emitBlock w.indent (splitNl r.code)) ++
          rebuildText gen cache (w.index + matchLen w) (ws ++ m :: zs)) ++
          gen.drop (chainEnd (w.index + matchLen w) (ws ++ m :: zs))
        = (strSlice gen lo w.index ++
          (match lookupU w.uuid cache with
           | none => matchText w
           | some r => emitBlock w.indent (splitNl r.code))) ++
          (rebuildText gen cache (w.index + matchLen w) (ws ++ m :: zs) ++
            gen.drop (chainEnd (w.index + matchLen w) (ws ++ m :: zs))) := by
          simp [List.append_assoc]
      _ = (strSlice gen lo w.index ++
          (match lookupU w.uuid cache with
           | none => matchText w
           | some r => emitBlock w.indent (splitNl r.code))) ++
          (rebuildText gen cache (w.index + matchLen w) (ws ++ zs) ++
            gen.drop (chainEnd (w.index + matchLen w) (ws ++ zs))) := by
          rw [hih]
      _ = (strSlice gen lo w.index ++
          (match lookupU w.uuid cache with
           | none => matchText w
           | some r => emitBlock w.indent (splitNl r.code)) ++
          rebuildText gen cache (w.index + matchLen w) (ws ++ zs)) ++
          gen.drop (chainEnd (w.index + matchLen w) (ws ++ zs)) := by
          simp [List.append_assoc]

/-- C8: a matched placeholder whose token is not in the lookup is emitted
verbatim and adds no source-map mapping, without error, and the output text
and the mappings of all other (recognized) occurrences are exactly those of
the run in which the pathological match does not participate at all. -/
theorem unknown_uuid_passthrough (gen : List Char)
    (cache : List (List Char × CRec)) (fs : String → List Char) (s : PState)
    (ws : List CMatch) (m : CMatch) (zs : List CMatch)
    (hv : validFrom gen s.lastMatchEnd (ws ++ m :: zs) = true)
    (hm : lookupU m.uuid cache = none)
    (hc : CacheOK fs s.srcCache) :
    (runTail gen cache fs (ws ++ m :: zs) s).buf =
      (runTail gen cache fs (ws ++ zs) s).buf ∧
    (runTail gen cache fs (ws ++ m :: zs) s).mappings =
      (runTail gen cache fs (ws ++ zs) s).mappings := by
  have hv2 := validFrom_drop_middle gen ws s.lastMatchEnd zs hv
  have hs1 := runMatches_state gen cache fs (ws ++ m :: zs) s hv
  have hs2 := runMatches_state gen cache fs (ws ++ zs) s hv2
  have hm1 := runMatches_maps gen cache fs (ws ++ m :: zs) s hv hc
  have hm2 := runMatches_maps gen cache fs (ws ++ zs) s hv2 hc
  constructor
  · show (runMatches gen cache fs (ws ++ m :: zs) s).buf ++
        gen.drop (runMatches gen cache fs (ws ++ m :: zs) s).lastMatchEnd =
      (runMatches gen cache fs (ws ++ zs) s).buf ++
        gen.drop (runMatches gen cache fs (ws ++ zs) s).lastMatchEnd
    rw [hs1.1, hs1.2.2, hs2.1, hs2.2.2, List.append_assoc, List.append_assoc]
    exact congrArg (s.buf ++ ·)
      (rebuild_tail_drop_unknown gen cache hm ws s.lastMatchEnd zs hv)
  · show (runMatches gen cache fs (ws ++ m :: zs) s).mappings =
      (runMatches gen cache fs (ws ++ zs) s).mappings
    rw [hm1.1, hm2.1]
    exact congrArg (s.mappings ++ ·)
      (mappingsOf_drop_unknown gen cache fs hm ws s.lastMatchEnd s.outLineNo zs hv)

/-! ### The anchoring of the placeholder scan (C4) -/

/-- A concrete uuid of the shape the regex accepts. -/
def uuidA : List Char := "aaaaaaaa-aaaa-aaaa-aaaa-aaaaaaaaaaaa".data

/-- A rendered text in which the only placeholder is preceded on its line by
the non-whitespace character `x`. -/
def c4Gen : List Char :=
  "x<<example:aaaaaaaa-aaaa-aaaa-aaaa-aaaaaaaaaaaa>>".data

/-- An example cache recognizing that placeholder. -/
def c4Cache : List (List Char × CRec) := [(uuidA, ⟨"c();".data, "f.js", 1⟩)]

/-- A file system for the concrete runs. -/
def c4Fs : String → List Char := fun _ => "c();".data

/-- C4 counterexample: the placeholder in `c4Gen` is preceded on its line by
the non-whitespace `x`, yet the scan matches it (at index 1) and the loop
does treat it as a substitution site — the code is spliced into the output
and a mapping is added — contradicting the claim that such an occurrence is
not matched and not a substitution site. -/
theorem placeholder_scan_anchor_counterexample :
    (findAll c4Gen).map CMatch.index = [1] ∧
    c4Gen.get? 0 = some 'x' ∧
    ¬ (postProcess c4Gen c4Cache c4Fs).mappings = [] ∧
    (postProcess c4Gen c4Cache c4Fs).buf = "xc();\n".data :=
  ⟨by decide, by decide, by decide, by decide⟩

/-- C4 (amended): the scan matches occurrences of the placeholder pattern
regardless of what precedes them on the line; what is captured as the
indentation prefix is the run of spaces/tabs immediately preceding the
placeholder (empty when non-whitespace directly precedes), it consists only
of whitespace, and the matched text occurs verbatim at the match index. -/
theorem placeholder_scan_amended (gen : List Char) (m : CMatch)
    (hm : m ∈ findAll gen) :
    isWsRun m.indent = true ∧ uuidShapeB m.uuid = true ∧
    m.index + matchLen m ≤ gen.length ∧
    strSlice gen m.index (m.index + matchLen m) =
      m.indent ++ placeholderCore m.uuid := by
  have h := validFrom_mem (findAll_valid gen) hm
  exact ⟨h.1, h.2.1, h.2.2.1, h.2.2.2⟩

/-- Witness for the amended C4 statement at the concrete non-anchored
occurrence. -/
theorem placeholder_scan_amended_witness :
    (⟨1, [], uuidA⟩ : CMatch) ∈ findAll c4Gen ∧
      isWsRun (⟨1, [], uuidA⟩ : CMatch).indent = true ∧
      strSlice c4Gen 1 (1 + matchLen ⟨1, [], uuidA⟩) =
        ([] : List Char) ++ placeholderCore uuidA :=
  ⟨by decide, (placeholder_scan_amended c4Gen ⟨1, [], uuidA⟩ (by decide)).1,
    (placeholder_scan_amended c4Gen ⟨1, [], uuidA⟩ (by decide)).2.2.2⟩

/-! ### The round-trip property (C1) -/

/-- The line-start condition on a buffer: empty, ends in a newline, or its
last character agrees with the character of `gen` just before position `lo`
(the loop invariant tying the buffer to the consumed prefix of `gen`). -/
def KOK (gen : List Char) (lo : Nat) (pre : List Char) : Prop :=
  pre = [] ∨ pre.getLast? = some '\n' ∨
    (1 ≤ lo ∧ pre.getLast? = gen.get? (lo - 1))

/-- What the round-trip property asserts of one mapping `mp` and the final
output text `out`: the mapping belongs to some cached example record and a
code line index `k` of it, its generated column is the length of the
captured (all-whitespace) indentation, its original position is the
record's file and line `sourceLine + k`, and reading the output text's line
at the mapping's generated position and stripping the indentation yields
exactly code line `k`. -/
def GoodMapping (cache : List (List Char × CRec)) (out : List Char)
    (mp : Mapping) : Prop :=
  ∃ u r k indent,
    lookupU u cache = some r ∧
    isWsRun indent = true ∧
    mp.genCol = indent.length ∧
    mp.source = r.file ∧
    k < (splitNl r.code).length ∧
    mp.origLine = r.line + k ∧
    1 ≤ mp.genLine ∧
    (splitNl out).get? (mp.genLine - 1) =
      some (indent ++ (splitNl r.code).getD k []) ∧
    (indent ++ (splitNl r.code).getD k []).drop mp.genCol =
      (splitNl r.code).getD k []

theorem noNl_append {a b : List Char} (ha : noNl a) (hb : noNl b) :
    noNl (a ++ b) := by
  intro h
  rcases List.mem_append.mp h with h | h
  · exact ha h
  · exact hb h

theorem mem_blockMaps (fs : String → List Char) (file : String) (col : Nat) :
    ∀ (lns : List (List Char)) (inLine outLine : Nat) (mp : Mapping),
      mp ∈ blockMaps fs file col lns inLine outLine →
      ∃ k, k < lns.length ∧ mp.source = file ∧ mp.origLine = inLine + k ∧
        mp.genLine = outLine + 1 + k ∧ mp.genCol = col := by
  intro lns
  induction lns with
  | nil => intro _ _ mp h; simp [blockMaps] at h
  | cons ln rest ih =>
    intro inLine outLine mp h
    rcases List.mem_cons.mp h with rfl | h2
    · exact ⟨0, by simp, rfl, by simp, by simp, rfl⟩
    · obtain ⟨k, hk, h3, h4, h5, h6⟩ := ih (inLine + 1) (outLine + 1) mp h2
      refine ⟨k + 1, by simp; omega, h3, by omega, by omega, h6⟩

/-- Reading back an emitted code line: if the buffer `p` ends at a line
start and has `n` newlines, then line `n + k` of
`p ++ (emitBlock indent lns ++ rest)` is exactly `indent ++ lns[k]`. -/
theorem splitNl_get?_emitBlock {ind : List Char} (hind : noNl ind) :
    ∀ (lns : List (List Char)) (p rest : List Char) (n k : Nat),
      endsNlOrEmpty p → countNl p = n → (∀ ln ∈ lns, noNl ln) →
      k < lns.length →
      (splitNl (p ++ (emitBlock ind lns ++ rest))).get? (n + k) =
        some (ind ++ lns.getD k []) := by
  intro lns
  induction lns with
  | nil => intro p rest n k _ _ _ hk; simp at hk
  | cons ln lrest ih =>
    intro p rest n k hp hcnt hnl hk
    cases k with
    | zero =>
      have e0 : emitBlock ind (ln :: lrest) ++ rest =
          (ind ++ ln) ++ ('\n' :: (emitBlock ind lrest ++ rest)) := by
        show (ind ++ ln ++ '\n' :: emitBlock ind lrest) ++ rest = _
        simp [List.append_assoc]
      rw [e0, splitNl_append_of_endsNl _ hp]
      have hlen : ((splitNl p).dropLast).length = n := by
        rw [length_dropLast_splitNl, hcnt]
      rw [List.get?_append_right (by omega)]
      have hnoln : noNl (ind ++ ln) :=
        noNl_append hind (hnl ln (List.mem_cons_self _ _))
      rw [splitNl_noNl_cons _ hnoln]
      simp [hlen]
    | succ k' =>
      have h1 : noNl ln := hnl ln (List.mem_cons_self _ _)
      have hrearr : p ++ (emitBlock ind (ln :: lrest) ++ rest) =
          (p ++ ((ind ++ ln) ++ ['\n'])) ++ (emitBlock ind lrest ++ rest) := by
        show p ++ ((ind ++ ln ++ '\n' :: emitBlock ind lrest) ++ rest) = _
        simp [List.append_assoc]
      have hp' : endsNlOrEmpty (p ++ ((ind ++ ln) ++ ['\n'])) := by
        right
        rw [getLast?_append_of_ne_nil (by simp),
          getLast?_append_of_ne_nil (by simp)]
        rfl
      have hcnt' : countNl (p ++ ((ind ++ ln) ++ ['\n'])) = n + 1 := by
        rw [countNl_append, countNl_append, hcnt,
          countNl_eq_zero_of_noNl (noNl_append hind h1)]
        rfl
      have hidx : n + (k' + 1) = (n + 1) + k' := by omega
      rw [hrearr, hidx]
      have := ih (p ++ ((ind ++ ln) ++ ['\n'])) rest (n + 1) k' hp' hcnt'
        (fun x hx => hnl x (List.mem_cons_of_mem _ hx)) (by simpa using hk)
      simpa using this

/-- Under the anchoring hypothesis, the buffer extended by the inter-match
span ends at a line start. -/
theorem endsNl_pre_slice {gen : List Char} {pre : List Char} {lo idx : Nat}
    (hK : KOK gen lo pre) (hlo : lo ≤ idx) (hidx : idx ≤ gen.length)
    (hanc : idx = 0 ∨ gen.get? (idx - 1) = some '\n') :
    endsNlOrEmpty (pre ++ strSlice gen lo idx) := by
  by_cases he : lo = idx
  · subst he
    rw [strSlice_eq_nil_of_ge (Nat.le_refl _), List.append_nil]
    rcases hK with hK | hK | ⟨hK1, hK2⟩
    · exact Or.inl hK
    · exact Or.inr hK
    · rcases hanc with hanc | hanc
      · omega
      · exact Or.inr (hK2.trans hanc)
  · have hlt : lo < idx := Nat.lt_of_le_of_ne hlo he
    have hne : strSlice gen lo idx ≠ [] := by
      intro hnil
      have := length_strSlice (l := gen) (a := lo) (b := idx) hidx
      rw [hnil] at this
      simp at this
      omega
    right
    rw [getLast?_append_of_ne_nil hne, getLast?_strSlice hlt hidx]
    rcases hanc with hanc | hanc
    · omega
    · exact hanc

theorem matchText_ne_nil (m : CMatch) : matchText m ≠ [] := by
  show m.indent ++ (lAngleTag ++ m.uuid ++ rAngleTag) ≠ []
  simp [lAngleTag]

/-- The central induction: every mapping produced by the match loop reads
back correctly from the final output text, provided every recognized match
sits at a line start (the renderer reproduced its placeholder verbatim up
to a whitespace indentation). -/
theorem mappingsOf_good (gen : List Char) (cache : List (List Char × CRec))
    (fs : String → List Char) :
    ∀ (ms : List CMatch) (lo outLine : Nat) (pre suffix : List Char),
      validFrom gen lo ms = true →
      (∀ m ∈ ms, (lookupU m.uuid cache).isSome →
        m.index = 0 ∨ gen.get? (m.index - 1) = some '\n') →
      countNl pre = outLine →
      KOK gen lo pre →
      ∀ mp ∈ mappingsOf gen cache fs lo outLine ms,
        GoodMapping cache (pre ++ (rebuildText gen cache lo ms ++ suffix)) mp := by
  intro ms
  induction ms with
  | nil =>
    intro lo outLine pre suffix _ _ _ _ mp hmp
    simp [mappingsOf] at hmp
  | cons m ms ih =>
    intro lo outLine pre suffix hv hanc hcnt hK mp hmp
    obtain ⟨h1, h2, h3, h4, h5, h6⟩ := validFrom_cons hv
    have hanc' : ∀ x ∈ ms, (lookupU x.uuid cache).isSome →
        x.index = 0 ∨ gen.get? (x.index - 1) = some '\n' :=
      fun x hx => hanc x (List.mem_cons_of_mem _ hx)
    cases hcl : lookupU m.uuid cache with
    | none =>
      have hmp' : mp ∈ mappingsOf gen cache fs (m.index + matchLen m)
          (outLine + countNl (strSlice gen lo m.index)) ms := by
        simpa [mappingsOf, hcl] using hmp
      have hcnt' : countNl (pre ++ (strSlice gen lo m.index ++ matchText m)) =
          outLine + countNl (strSlice gen lo m.index) := by
        rw [countNl_append, countNl_append, hcnt, countNl_matchText h3 h4]
        omega
      have hK' : KOK gen (m.index + matchLen m)
          (pre ++ (strSlice gen lo m.index ++ matchText m)) := by
        right; right
        constructor
        · have : 48 ≤ matchLen m := Nat.le_add_left _ _
          omega
        · rw [getLast?_append_of_ne_nil
            (by simp [matchText_ne_nil m]),
            getLast?_append_of_ne_nil (matchText_ne_nil m), ← h5,
            getLast?_strSlice (by have : 48 ≤ matchLen m := Nat.le_add_left _ _; omega) h2]
      have hres := ih (m.index + matchLen m)
        (outLine + countNl (strSlice gen lo m.index))
        (pre ++ (strSlice gen lo m.index ++ matchText m)) suffix
        h6 hanc' hcnt' hK' mp hmp'
      have heq : (pre ++ (strSlice gen lo m.index ++ matchText m)) ++
          (rebuildText gen cache (m.index + matchLen m) ms ++ suffix) =
          pre ++ (rebuildText gen cache lo (m :: ms) ++ suffix) := by
        have hre : rebuildText gen cache lo (m :: ms) =
            strSlice gen lo m.index ++ matchText m ++
              rebuildText gen cache (m.index + matchLen m) ms := by
          simp [rebuildText, hcl]
        rw [hre]
        simp [List.append_assoc]
      rw [heq] at hres
      exact hres
    | some r =>
      have hanc_m : m.index = 0 ∨ gen.get? (m.index - 1) = some '\n' :=
        hanc m (List.mem_cons_self _ _) (by rw [hcl]; rfl)
      have hends : endsNlOrEmpty (pre ++ strSlice gen lo m.index) :=
        endsNl_pre_slice hK h1 (by omega) hanc_m
      have hcnt2 : countNl (pre ++ strSlice gen lo m.index) =
          outLine + countNl (strSlice gen lo m.index) := by
        rw [countNl_append, hcnt]
      have hre : rebuildText gen cache lo (m :: ms) =
          strSlice gen lo m.index ++ emitBlock m.indent (splitNl r.code) ++
            rebuildText gen cache (m.index + matchLen m) ms := by
        simp [rebuildText, hcl]
      have hmp' : mp ∈ blockMaps fs r.file m.indent.length (splitNl r.code)
            r.line (outLine + countNl (strSlice gen lo m.index)) ∨
          mp ∈ mappingsOf gen cache fs (m.index + matchLen m)
            (outLine + countNl (strSlice gen lo m.index) +
              (splitNl r.code).length) ms := by
        have : mp ∈ blockMaps fs r.file m.indent.length (splitNl r.code)
            r.line (outLine + countNl (strSlice gen lo m.index)) ++
            mappingsOf gen cache fs (m.index + matchLen m)
              (outLine + countNl (strSlice gen lo m.index) +
                (splitNl r.code).length) ms := by
          simpa [mappingsOf, hcl] using hmp
        exact List.mem_append.mp this
      rcases hmp' with hmp' | hmp'
      · obtain ⟨k, hk, hsrc, horig, hgenl, hgenc⟩ :=
          mem_blockMaps fs r.file m.indent.length (splitNl r.code) r.line
            (outLine + countNl (strSlice gen lo m.index)) mp hmp'
        refine ⟨m.uuid, r, k, m.indent, hcl, h3, hgenc, hsrc, hk, horig,
          by omega, ?_, ?_⟩
        · have hline : mp.genLine - 1 =
              (outLine + countNl (strSlice gen lo m.index)) + k := by omega
          rw [hline]
          have htext : pre ++ (rebuildText gen cache lo (m :: ms) ++ suffix) =
              (pre ++ strSlice gen lo m.index) ++
                (emitBlock m.indent (splitNl r.code) ++
                  (rebuildText gen cache (m.index + matchLen m) ms ++ suffix)) := by
            rw [hre]
            simp [List.append_assoc]
          rw [htext]
          exact splitNl_get?_emitBlock (noNl_of_isWsRun h3) (splitNl r.code)
            (pre ++ strSlice gen lo m.index)
            (rebuildText gen cache (m.index + matchLen m) ms ++ suffix)
            (outLine + countNl (strSlice gen lo m.index)) k hends hcnt2
            (fun ln hln => mem_splitNl_noNl hln) hk
        · rw [hgenc]
          exact List.drop_left _ _
      · have hcode_ne : splitNl r.code ≠ [] := splitNl_ne_nil _
        have hcnt' : countNl ((pre ++ strSlice gen lo m.index) ++
            emitBlock m.indent (splitNl r.code)) =
            outLine + countNl (strSlice gen lo m.index) +
              (splitNl r.code).length := by
          rw [countNl_append, hcnt2,
            countNl_emitBlock (noNl_of_isWsRun h3) _
              (fun ln hln => mem_splitNl_noNl hln)]
        have hK' : KOK gen (m.index + matchLen m)
            ((pre ++ strSlice gen lo m.index) ++
              emitBlock m.indent (splitNl r.code)) := by
          right; left
          rw [getLast?_append_of_ne_nil (by
            cases hsp : splitNl r.code with
            | nil => exact absurd hsp hcode_ne
            | cons a t => exact emitBlock_ne_nil m.indent a t)]
          exact endsNl_emitBlock m.indent _ hcode_ne
        have hres := ih (m.index + matchLen m)
          (outLine + countNl (strSlice gen lo m.index) + (splitNl r.code).length)
          ((pre ++ strSlice gen lo m.index) ++ emitBlock m.indent (splitNl r.code))
          suffix h6 hanc' hcnt' hK' mp hmp'
        have heq : ((pre ++ strSlice gen lo m.index) ++
            emitBlock m.indent (splitNl r.code)) ++
            (rebuildText gen cache (m.index + matchLen m) ms ++ suffix) =
            pre ++ (rebuildText gen cache lo (m :: ms) ++ suffix) := by
          rw [hre]
          simp [List.append_assoc]
        rw [heq] at hres
        exact hres

/-- C1 (round-trip): for every example list and every renderer whose output
reproduces each recognized placeholder at a line start (verbatim up to the
captured whitespace indentation), every mapping of the returned source map
reads back correctly: taking the output text's line at the mapping's
generated position and stripping the captured indentation prefix yields
exactly the corresponding line (`sourceLine + k` ↦ code line `k`) of that
example's original code. -/
theorem generatingSourceMap_roundTrip (uuids : List (List Char))
    (examples : List CRec) (renderer : List CRec → List Char)
    (fs : String → List Char)
    (hanc : ∀ m ∈ findAll (renderer (substExamples uuids examples)),
      (lookupU m.uuid (uuids.zip examples)).isSome →
      m.index = 0 ∨
        (renderer (substExamples uuids examples)).get? (m.index - 1) =
          some '\n') :
    ∀ mp ∈ (generatingSourceMap uuids examples renderer fs).2,
      GoodMapping (uuids.zip examples)
        (generatingSourceMap uuids examples renderer fs).1 mp := by
  intro mp hmp
  have hv := findAll_valid (renderer (substExamples uuids examples))
  have hstate := runMatches_state (renderer (substExamples uuids examples))
    (uuids.zip examples) fs
    (findAll (renderer (substExamples uuids examples))) initState hv
  have hmaps := runMatches_maps (renderer (substExamples uuids examples))
    (uuids.zip examples) fs
    (findAll (renderer (substExamples uuids examples))) initState hv
    (by intro p hp; simp [initState] at hp)
  have hmp2 : mp ∈ mappingsOf (renderer (substExamples uuids examples))
      (uuids.zip examples) fs 0 0
      (findAll (renderer (substExamples uuids examples))) := by
    have he : (generatingSourceMap uuids examples renderer fs).2 =
        (runMatches (renderer (substExamples uuids examples))
          (uuids.zip examples) fs
          (findAll (renderer (substExamples uuids examples)))
          initState).mappings := rfl
    rw [he, hmaps.1] at hmp
    simpa [initState] using hmp
  have hgood := mappingsOf_good (renderer (substExamples uuids examples))
    (uuids.zip examples) fs
    (findAll (renderer (substExamples uuids examples))) 0 0 []
    ((renderer (substExamples uuids examples)).drop
      (chainEnd 0 (findAll (renderer (substExamples uuids examples)))))
    hv hanc rfl (Or.inl rfl) mp hmp2
  have hout : (generatingSourceMap uuids examples renderer fs).1 =
      [] ++ (rebuildText (renderer (substExamples uuids examples))
          (uuids.zip examples) 0
          (findAll (renderer (substExamples uuids examples))) ++
        (renderer (substExamples uuids examples)).drop
          (chainEnd 0 (findAll (renderer (substExamples uuids examples))))) := by
    have e1 : (generatingSourceMap uuids examples renderer fs).1 =
        (runMatches (renderer (substExamples uuids examples))
          (uuids.zip examples) fs
          (findAll (renderer (substExamples uuids examples)))
          initState).buf ++
        (renderer (substExamples uuids examples)).drop
          (runMatches (renderer (substExamples uuids examples))
            (uuids.zip examples) fs
            (findAll (renderer (substExamples uuids examples)))
            initState).lastMatchEnd := rfl
    rw [e1, hstate.1, hstate.2.2]
    simp [initState]
  rw [hout]
  exact hgood

/-- Concrete inputs for the round-trip witness: one example, and a renderer
that wraps the placeholder in surrounding text and indents it by one space
on its own line. -/
def c1Ex : CRec := ⟨"x();\ny();".data, "f.js", 3⟩

def c1Renderer : List CRec → List Char :=
  fun es => "t\n ".data ++ (es.map CRec.code).flatten ++ "\nu".data

/-- Witness for C1 at the concrete renderer and example. -/
theorem generatingSourceMap_roundTrip_witness :
    (∀ m ∈ findAll (c1Renderer (substExamples [uuidA] [c1Ex])),
      (lookupU m.uuid ([uuidA].zip [c1Ex])).isSome →
      m.index = 0 ∨
        (c1Renderer (substExamples [uuidA] [c1Ex])).get? (m.index - 1) =
          some '\n') ∧
    (∀ mp ∈ (generatingSourceMap [uuidA] [c1Ex] c1Renderer c4Fs).2,
      GoodMapping ([uuidA].zip [c1Ex])
        (generatingSourceMap [uuidA] [c1Ex] c1Renderer c4Fs).1 mp) :=
  ⟨by decide,
    generatingSourceMap_roundTrip [uuidA] [c1Ex] c1Renderer c4Fs (by decide)⟩

/-- Two recognized placeholders on one output line: the span between them
contains zero newlines. -/
def c5Gen : List Char :=
  ("<<example:aaaaaaaa-aaaa-aaaa-aaaa-aaaaaaaaaaaa>> " ++
    "<<example:aaaaaaaa-aaaa-aaaa-aaaa-aaaaaaaaaaaa>>").data

/-- Witness for C5 at a text where the first placeholder sits at the very
start of the output (empty first span) and the second is separated from it
by a single space (zero-newline span). -/
theorem interMatch_span_emission_witness :
    validFrom c5Gen initState.lastMatchEnd (findAll c5Gen) = true ∧
    ((runMatches c5Gen c4Cache c4Fs (findAll c5Gen) initState).buf =
      initState.buf ++
        rebuildText c5Gen c4Cache initState.lastMatchEnd (findAll c5Gen) ∧
    (runMatches c5Gen c4Cache c4Fs (findAll c5Gen) initState).outLineNo =
      initState.outLineNo +
        countNl (rebuildText c5Gen c4Cache initState.lastMatchEnd
          (findAll c5Gen))) :=
  ⟨by decide,
    interMatch_span_emission c5Gen c4Cache c4Fs (findAll c5Gen) initState
      (by decide)⟩

/-- A uuid of the right shape that is not in the example cache. -/
def uuidB : List Char := "bbbbbbbb-bbbb-bbbb-bbbb-bbbbbbbbbbbb".data

/-- A rendered text with an unrecognized placeholder (uuid not in the cache)
followed by a recognized one. -/
def c8Gen : List Char :=
  ("a\n<<example:bbbbbbbb-bbbb-bbbb-bbbb-bbbbbbbbbbbb>>\n" ++
    "<<example:aaaaaaaa-aaaa-aaaa-aaaa-aaaaaaaaaaaa>>\n").data

/-- Witness for C8 at the concrete unknown-uuid match. -/
theorem unknown_uuid_passthrough_witness :
    validFrom c8Gen initState.lastMatchEnd
      (([] : List CMatch) ++ ⟨2, [], uuidB⟩ :: [⟨51, [], uuidA⟩]) = true ∧
    lookupU uuidB c4Cache = none ∧
    ((runTail c8Gen c4Cache c4Fs
        (([] : List CMatch) ++ ⟨2, [], uuidB⟩ :: [⟨51, [], uuidA⟩])
        initState).buf =
      (runTail c8Gen c4Cache c4Fs (([] : List CMatch) ++ [⟨51, [], uuidA⟩])
        initState).buf ∧
    (runTail c8Gen c4Cache c4Fs
        (([] : List CMatch) ++ ⟨2, [], uuidB⟩ :: [⟨51, [], uuidA⟩])
        initState).mappings =
      (runTail c8Gen c4Cache c4Fs (([] : List CMatch) ++ [⟨51, [], uuidA⟩])
        initState).mappings) :=
  ⟨by decide, by decide,
    unknown_uuid_passthrough c8Gen c4Cache c4Fs initState []
      ⟨2, [], uuidB⟩ [⟨51, [], uuidA⟩] (by decide) (by decide)
      (by intro p hp; simp [initState] at hp)⟩

end Doctest
